import Mathlib

/-!
# Verification of the transaction CSV converter

A shallow embedding of `transaction_processor.py` (class `TransactionProcessor`):
configuration loading (`_load_config`), row normalization (`load_transactions`,
`_standardize_date`, `_standardize_amount`), the transactions getter and the
CSV writer (`write_standardized_csv`).

Modelling conventions:
* Python strings are Lean `String`s / `List Char`s; `str.strip()` is `pyStrip`
  over the ASCII whitespace characters; `str.replace(c, '')` for a one-character
  pattern is `List.filter`.
* Python `float` values are modelled exactly: `PyFloat` carries an exact
  rational for finite values, plus infinities and NaN.  `float(s)` is
  `pyFloatParse` (sign, decimal digits with underscores between digits,
  optional fraction and exponent, `inf`/`infinity`/`nan`, ASCII digits);
  `str(f)` is `pyFloatStr`, printing the exact value with the minimal number of
  fractional digits (at least one).  IEEE-754 rounding, overflow to infinity
  and the scientific-notation printing of very large/small magnitudes are
  idealized away; no claim below depends on them.
* `datetime.strptime` for the four formats used by the code is embedded
  following CPython's `_strptime` regular expressions: `%Y` is exactly four
  digits, `%m` is `1[0-2]|0[1-9]|[1-9]`, `%d` is `3[01]|[12]\d|0[1-9]|[1-9]`,
  and the constructed date must be a valid calendar date (year 1..9999).
  `strftime('%Y-%m-%d')` zero-pads the year to four digits as documented.
* The delimited-text layer (the `csv` module) is modelled as faithful field
  transport: the writer emits, and the reader yields, each record's four field
  strings unchanged.
* Raising an exception is returning `Except.error msg` where `msg` is the
  exception's message text; the mutable `self.transactions` list is threaded
  explicitly through `load_transactions`.
-/

/-! ## Python string primitives -/

/-- ASCII whitespace stripped by `str.strip()` and by `float()`. -/
def pyIsSpace (c : Char) : Bool :=
  c = ' ' ∨ c = '\t' ∨ c = '\n' ∨ c = '\x0b' ∨ c = '\x0c' ∨ c = '\r'

/-- `str.strip()` on a character list: drop whitespace from both ends. -/
def pyStripList (l : List Char) : List Char :=
  ((l.dropWhile pyIsSpace).reverse.dropWhile pyIsSpace).reverse

/-- `str.strip()`. -/
def pyStrip (s : String) : String :=
  String.mk (pyStripList s.data)

/-- Numeric value of a digit character. -/
def digitVal (c : Char) : ℕ := c.toNat - 48

/-- Big-endian digit characters to a natural number. -/
def digitsToNat (l : List Char) : ℕ :=
  l.foldl (fun a c => a * 10 + digitVal c) 0

/-- The digit character for a value `0..9`. -/
def toDigitChar (d : ℕ) : Char := Char.ofNat (48 + d)

/-- Fuel-driven core of decimal printing: emits the big-endian digits of `n`
in front of `acc`.  The fuel only makes the recursion structural; any fuel
with `n < 10 ^ fuel` yields the digits of `n`. -/
def natToCharsCore : ℕ → ℕ → List Char → List Char
  | 0, _, acc => acc
  | fuel + 1, n, acc =>
    if n < 10 then toDigitChar n :: acc
    else natToCharsCore fuel (n / 10) (toDigitChar (n % 10) :: acc)

/-- Big-endian decimal digit characters of `n` (at least one digit). -/
def natToChars (n : ℕ) : List Char :=
  natToCharsCore (n + 1) n []

/-- Decimal digits of `n`, left-padded with `'0'` to length at least `k`. -/
def padNat (k n : ℕ) : List Char :=
  List.replicate (k - (natToChars n).length) '0' ++ natToChars n

/-! ## Date standardization (`TransactionProcessor._standardize_date`) -/

/-- Consume one expected literal character. -/
def expectChar (c : Char) : List Char → Option (List Char)
  | a :: rest => if a = c then some rest else none
  | [] => none

/-- `strptime`'s `%Y`: exactly four digits. -/
def parseYear4 : List Char → Option (ℕ × List Char)
  | a :: b :: c :: d :: rest =>
    if a.isDigit ∧ b.isDigit ∧ c.isDigit ∧ d.isDigit then
      some (digitsToNat [a, b, c, d], rest)
    else none
  | _ => none

/-- `strptime`'s `%m`: the regex `1[0-2]|0[1-9]|[1-9]` (two digits when they
form `01`..`12`, otherwise a single digit `1`..`9`). -/
def parseMonth : List Char → Option (ℕ × List Char)
  | [] => none
  | a :: rest =>
    if a.isDigit then
      match rest with
      | b :: rest' =>
        if b.isDigit then
          let v := digitVal a * 10 + digitVal b
          if (10 ≤ v ∧ v ≤ 12) ∨ (a = '0' ∧ 1 ≤ v) then some (v, rest')
          else if 1 ≤ digitVal a then some (digitVal a, b :: rest')
          else none
        else if 1 ≤ digitVal a then some (digitVal a, rest) else none
      | [] => if 1 ≤ digitVal a then some (digitVal a, []) else none
    else none

/-- `strptime`'s `%d`: the regex `3[01]|[12]\d|0[1-9]|[1-9]`. -/
def parseDay : List Char → Option (ℕ × List Char)
  | [] => none
  | a :: rest =>
    if a.isDigit then
      match rest with
      | b :: rest' =>
        if b.isDigit then
          let v := digitVal a * 10 + digitVal b
          if (10 ≤ v ∧ v ≤ 31) ∨ (a = '0' ∧ 1 ≤ v) then some (v, rest')
          else if 1 ≤ digitVal a then some (digitVal a, b :: rest')
          else none
        else if 1 ≤ digitVal a then some (digitVal a, rest) else none
      | [] => if 1 ≤ digitVal a then some (digitVal a, []) else none
    else none

/-- Gregorian leap year, as in `datetime`. -/
def isLeapYear (y : ℕ) : Bool :=
  (y % 4 = 0 ∧ y % 100 ≠ 0) ∨ y % 400 = 0

/-- Number of days of month `m` of year `y`, as in `datetime`. -/
def daysInMonth (y m : ℕ) : ℕ :=
  if m = 2 then (if isLeapYear y then 29 else 28)
  else if m = 4 ∨ m = 6 ∨ m = 9 ∨ m = 11 then 30
  else 31

/-- The validity check of the `datetime` constructor (`MINYEAR = 1`,
`MAXYEAR = 9999`). -/
def validDate (y m d : ℕ) : Bool :=
  1 ≤ y ∧ y ≤ 9999 ∧ 1 ≤ m ∧ m ≤ 12 ∧ 1 ≤ d ∧ d ≤ daysInMonth y m

/-- Chain two scanning steps. -/
def andThen {A B : Type} (x : Option A) (f : A → Option B) : Option B :=
  match x with
  | none => none
  | some a => f a

/-- `strptime(s, '%Y-%m-%d')`: full match plus calendar validity. -/
def parseYmdDash (l : List Char) : Option (ℕ × ℕ × ℕ) :=
  andThen (parseYear4 l) fun yr =>
  andThen (expectChar '-' yr.2) fun r2 =>
  andThen (parseMonth r2) fun mr =>
  andThen (expectChar '-' mr.2) fun r4 =>
  andThen (parseDay r4) fun dr =>
  if dr.2 = [] ∧ validDate yr.1 mr.1 dr.1 then some (yr.1, mr.1, dr.1) else none

/-- `strptime(s, '%m/%d/%Y')`. -/
def parseMdySlash (l : List Char) : Option (ℕ × ℕ × ℕ) :=
  andThen (parseMonth l) fun mr =>
  andThen (expectChar '/' mr.2) fun r2 =>
  andThen (parseDay r2) fun dr =>
  andThen (expectChar '/' dr.2) fun r4 =>
  andThen (parseYear4 r4) fun yr =>
  if yr.2 = [] ∧ validDate yr.1 mr.1 dr.1 then some (yr.1, mr.1, dr.1) else none

/-- `strptime(s, '%d/%m/%Y')`. -/
def parseDmySlash (l : List Char) : Option (ℕ × ℕ × ℕ) :=
  andThen (parseDay l) fun dr =>
  andThen (expectChar '/' dr.2) fun r2 =>
  andThen (parseMonth r2) fun mr =>
  andThen (expectChar '/' mr.2) fun r4 =>
  andThen (parseYear4 r4) fun yr =>
  if yr.2 = [] ∧ validDate yr.1 mr.1 dr.1 then some (yr.1, mr.1, dr.1) else none

/-- `strptime(s, '%Y/%m/%d')`. -/
def parseYmdSlash (l : List Char) : Option (ℕ × ℕ × ℕ) :=
  andThen (parseYear4 l) fun yr =>
  andThen (expectChar '/' yr.2) fun r2 =>
  andThen (parseMonth r2) fun mr =>
  andThen (expectChar '/' mr.2) fun r4 =>
  andThen (parseDay r4) fun dr =>
  if dr.2 = [] ∧ validDate yr.1 mr.1 dr.1 then some (yr.1, mr.1, dr.1) else none

/-- `strftime('%Y-%m-%d')`: zero-padded `YYYY-MM-DD`. -/
def formatDate (y m d : ℕ) : String :=
  String.mk (padNat 4 y ++ ('-' :: padNat 2 m) ++ ('-' :: padNat 2 d))

/-- Uncurried `formatDate`. -/
def formatDate3 (t : ℕ × ℕ × ℕ) : String :=
  formatDate t.1 t.2.1 t.2.2

/-- `TransactionProcessor._standardize_date`: try the four formats in the fixed
source order `('%Y-%m-%d', '%m/%d/%Y', '%d/%m/%Y', '%Y/%m/%d')`, return the
first success reformatted as `YYYY-MM-DD`; the `ValueError` raised when every
format fails is wrapped by the function's own `except` clause. -/
def standardize_date (s : String) : Except String String :=
  match parseYmdDash s.data with
  | some t => .ok (formatDate3 t)
  | none =>
    match parseMdySlash s.data with
    | some t => .ok (formatDate3 t)
    | none =>
      match parseDmySlash s.data with
      | some t => .ok (formatDate3 t)
      | none =>
        match parseYmdSlash s.data with
        | some t => .ok (formatDate3 t)
        | none => .error ("Date standardization error: Unable to parse date: " ++ s)

/-- Shape check: ten characters `DDDD-DD-DD` (digits and two dashes). -/
def isIsoDateShape (s : String) : Bool :=
  match s.data with
  | [a, b, c, d, h1, e, f, h2, g, i] =>
    a.isDigit ∧ b.isDigit ∧ c.isDigit ∧ d.isDigit ∧ h1 = '-' ∧
    e.isDigit ∧ f.isDigit ∧ h2 = '-' ∧ g.isDigit ∧ i.isDigit
  | _ => false

/-! ## Amount standardization (`TransactionProcessor._standardize_amount`)

Python `float` values in the exact-rational idealization.  A finite value is a
canonical decimal pair `(n, k)` denoting `n / 10 ^ k`, with `k = 0` or
`¬ 10 ∣ n`, so that structural equality coincides with value equality. -/

/-- A Python `float` value. -/
inductive PyFloat where
  | finite (n : ℤ) (k : ℕ)
  | inf (neg : Bool)
  | nan
deriving DecidableEq

/-- The rational value of a finite `PyFloat` pair. -/
def decValue (n : ℤ) (k : ℕ) : ℚ := (n : ℚ) / 10 ^ k

/-- Strip factors of ten: canonicalize the decimal pair `(n, k)`. -/
def decimalReduce : ℤ → ℕ → ℤ × ℕ
  | n, 0 => (n, 0)
  | n, k + 1 => if (10 : ℤ) ∣ n then decimalReduce (n / 10) k else (n, k + 1)

/-- Build the finite `float` with sign `neg`, integer digits `ip`, fractional
digits `fp` and decimal exponent `e`, in canonical form. -/
def mkFinite (neg : Bool) (ip fp : List Char) (e : ℤ) : PyFloat :=
  let N : ℕ := digitsToNat (ip ++ fp) * 10 ^ e.toNat
  let n : ℤ := if neg then -(N : ℤ) else (N : ℤ)
  let p := decimalReduce n (fp.length + (-e).toNat)
  .finite p.1 p.2

/-- Canonicity invariant of `PyFloat`: finite pairs carry no factor of ten. -/
def PyFloat.canonical : PyFloat → Prop
  | .finite n k => k = 0 ∨ ¬ (10 : ℤ) ∣ n
  | _ => True

/-- CPython's underscore rule for numeric strings: every `'_'` must have a
digit immediately on both sides (`prev` is the preceding character). -/
def underscoresOkAux : Char → List Char → Bool
  | _, [] => true
  | prev, c :: rest =>
    if c = '_' then
      prev.isDigit && (match rest with | d :: _ => d.isDigit | [] => false) &&
        underscoresOkAux c rest
    else underscoresOkAux c rest

/-- Underscore placement check for the whole string. -/
def underscoresOk : List Char → Bool
  | [] => true
  | c :: rest => c ≠ '_' && underscoresOkAux c rest

/-- ASCII lowercasing, for the case-insensitive `inf`/`nan` spellings. -/
def toLowerAscii (c : Char) : Char :=
  if 'A' ≤ c ∧ c ≤ 'Z' then Char.ofNat (c.toNat + 32) else c

/-- Optional exponent sign. -/
def readSign : List Char → Bool × List Char
  | '+' :: r => (false, r)
  | '-' :: r => (true, r)
  | l => (false, l)

/-- After the mantissa: end of input, or `e`/`E` followed by a signed
all-digit exponent. -/
def finishExp (neg : Bool) (ip fp : List Char) : List Char → Option PyFloat
  | [] => some (mkFinite neg ip fp 0)
  | c :: r =>
    if c = 'e' ∨ c = 'E' then
      let s := readSign r
      let ed := s.2.takeWhile Char.isDigit
      let rest := s.2.dropWhile Char.isDigit
      if ed = [] ∨ rest ≠ [] then none
      else some (mkFinite neg ip fp (if s.1 then -(digitsToNat ed : ℤ) else (digitsToNat ed : ℤ)))
    else none

/-- Mantissa of a numeric string: digits, optional `'.'` plus digits, at
least one digit overall, then an optional exponent. -/
def parseDecimalSci (neg : Bool) (l : List Char) : Option PyFloat :=
  let ip := l.takeWhile Char.isDigit
  let r1 := l.dropWhile Char.isDigit
  match r1 with
  | '.' :: r2 =>
    let fp := r2.takeWhile Char.isDigit
    let r3 := r2.dropWhile Char.isDigit
    if ip = [] ∧ fp = [] then none else finishExp neg ip fp r3
  | _ => if ip = [] then none else finishExp neg ip [] r1

/-- After the optional sign: `inf`, `infinity`, `nan` (case-insensitive) or a
numeric mantissa. -/
def parseAfterSign (neg : Bool) (l : List Char) : Option PyFloat :=
  let low := l.map toLowerAscii
  if low = ['i', 'n', 'f'] ∨ low = ['i', 'n', 'f', 'i', 'n', 'i', 't', 'y'] then
    some (.inf neg)
  else if low = ['n', 'a', 'n'] then some .nan
  else parseDecimalSci neg l

/-- The optional leading sign of a numeric string. -/
def parseSigned : List Char → Option PyFloat
  | '+' :: r => parseAfterSign false r
  | '-' :: r => parseAfterSign true r
  | r => parseAfterSign false r

/-- Python's `float(string)`: strip whitespace, check and drop underscores,
read the optional sign, then the payload.  (Unicode digits and non-ASCII
whitespace are idealized away.) -/
def pyFloatParse (l : List Char) : Option PyFloat :=
  let t := pyStripList l
  if underscoresOk t then parseSigned (t.filter (fun c => c ≠ '_')) else none

/-- Python's `str(float)` in the exact idealization: sign, then the decimal
digits with the point placed `k` digits from the right, padding with zeros so
that there is at least one digit on each side of the point. -/
def pyFloatStr : PyFloat → String
  | .nan => "nan"
  | .inf true => "-inf"
  | .inf false => "inf"
  | .finite n k =>
    let ds := natToChars n.natAbs
    let ds' := List.replicate (k + 1 - ds.length) '0' ++ ds
    let ip := ds'.take (ds'.length - k)
    let fp := if k = 0 then ['0'] else ds'.drop (ds'.length - k)
    String.mk ((if n < 0 then ['-'] else []) ++ ip ++ ('.' :: fp))

/-- The cleaning steps of `_standardize_amount`: drop every `'$'`, `'£'` and
`'€'`, strip surrounding whitespace, then drop every `','`. -/
def cleanAmount (s : String) : List Char :=
  (pyStripList (((s.data.filter (fun c => c ≠ '$')).filter
      (fun c => c ≠ '£')).filter (fun c => c ≠ '€'))).filter (fun c => c ≠ ',')

/-- `TransactionProcessor._standardize_amount`: clean the string and convert
with `float`; a failed conversion's `ValueError` (which names the cleaned
string) is wrapped by the function's `except` clause. -/
def standardize_amount (s : String) : Except String PyFloat :=
  match pyFloatParse (cleanAmount s) with
  | some v => .ok v
  | none =>
    .error ("Amount standardization error: could not convert string to float: '"
      ++ String.mk (cleanAmount s) ++ "'")

/-! ## The processor (`TransactionProcessor`) -/

/-- The four-key field mapping (`FieldMapping`). -/
structure FieldMapping where
  date_field : String
  description_field : String
  amount_field : String
  category_field : String
deriving DecidableEq

/-- A raw CSV row as produced by `csv.DictReader`: column name to raw value. -/
def RawRow := List (String × String)

/-- Python's `row.get(key, default)`. -/
def rowGet (row : RawRow) (key default : String) : String :=
  match List.lookup key row with
  | some v => v
  | none => default

/-- Raw date value: `row.get(mapping['date_field'], '')`. -/
def rawDate (m : FieldMapping) (row : RawRow) : String :=
  rowGet row m.date_field ""

/-- Raw description value: `row.get(mapping['description_field'], '')`. -/
def rawDescription (m : FieldMapping) (row : RawRow) : String :=
  rowGet row m.description_field ""

/-- Raw amount value: `row.get(mapping['amount_field'], '0')`. -/
def rawAmount (m : FieldMapping) (row : RawRow) : String :=
  rowGet row m.amount_field "0"

/-- Raw category value: `row.get(mapping['category_field'], '')`. -/
def rawCategory (m : FieldMapping) (row : RawRow) : String :=
  rowGet row m.category_field ""

/-- A standardized transaction dictionary (`CanonicalTransaction`). -/
structure Transaction where
  date : String
  description : String
  amount : PyFloat
  category : String
deriving DecidableEq

/-- The body of the `for` loop of `load_transactions`: build one standardized
transaction from one raw row (the dictionary literal evaluates the date first,
then description, amount and category). -/
def processRow (m : FieldMapping) (row : RawRow) : Except String Transaction :=
  match standardize_date (rawDate m row) with
  | .error e => .error e
  | .ok date =>
    match standardize_amount (rawAmount m row) with
    | .error e => .error e
    | .ok amount =>
      .ok { date := date, description := pyStrip (rawDescription m row),
            amount := amount, category := pyStrip (rawCategory m row) }

/-- `TransactionProcessor.load_transactions` over an in-memory row list:
starting from the current `self.transactions` list `acc`, append each row's
standardized transaction; a row failure stops the loop, leaves the list as it
is and raises the wrapped error. -/
def load_transactions (m : FieldMapping) :
    List RawRow → List Transaction → List Transaction × Option String
  | [], acc => (acc, none)
  | row :: rows, acc =>
    match processRow m row with
    | .ok t => load_transactions m rows (acc ++ [t])
    | .error e => (acc, some ("Error loading transactions: " ++ e))

/-- `TransactionProcessor.get_transactions`: return `self.transactions`. -/
def get_transactions (transactions : List Transaction) : List Transaction :=
  transactions

/-- One full normalization run on a fresh processor: the resulting sequence
when every row succeeds, the raised error otherwise. -/
def normalizeRows (m : FieldMapping) (rows : List RawRow) : Except String (List Transaction) :=
  match load_transactions m rows [] with
  | (ts, none) => .ok ts
  | (_, some e) => .error e

/-- A parsed config descriptor: keys and values of the JSON object. -/
def ConfigDoc := List (String × String)

/-- The four required keys of `_load_config`. -/
def requiredKeys : List String :=
  ["date_field", "description_field", "amount_field", "category_field"]

/-- `TransactionProcessor._load_config` on an already-parsed descriptor:
return it unchanged when all four required keys are present, otherwise raise
`ValueError("Config file missing required field mappings")`. -/
def load_config (config : ConfigDoc) : Except String ConfigDoc :=
  if requiredKeys.all (fun k => (List.lookup k config).isSome) then .ok config
  else .error "Config file missing required field mappings"

/-- Serialize one transaction to its four output fields, as `csv.DictWriter`
writes them (`str` applied to each value). -/
def serializeRow (t : Transaction) : List String :=
  [t.date, t.description, pyFloatStr t.amount, t.category]

/-- `TransactionProcessor.write_standardized_csv`: refuse an empty transaction
list, otherwise emit the fixed header and one record per transaction. -/
def write_standardized_csv (transactions : List Transaction) :
    Except String (List (List String)) :=
  if transactions = [] then
    .error "No transactions loaded. Call load_transactions() first."
  else
    .ok (["date", "description", "amount", "category"] :: transactions.map serializeRow)

/-- The identity field mapping used to re-read the writer's output. -/
def idMapping : FieldMapping :=
  { date_field := "date", description_field := "description",
    amount_field := "amount", category_field := "category" }

/-- The raw row that `csv.DictReader` yields for a written transaction. -/
def transactionToRow (t : Transaction) : RawRow :=
  [("date", t.date), ("description", t.description),
   ("amount", pyFloatStr t.amount), ("category", t.category)]

/-- An example field mapping with distinct source column names. -/
def exMapping : FieldMapping :=
  { date_field := "Date", description_field := "Desc", amount_field := "Amt",
    category_field := "Cat" }

/-- A example raw row with every field in a supported format. -/
def exRow : RawRow :=
  [("date", "2023-01-15"), ("description", " Coffee "), ("amount", "$4.50"),
   ("category", "Food")]

/-- The standardized transaction of `exRow`. -/
def exTx : Transaction :=
  { date := "2023-01-15", description := "Coffee", amount := .finite 45 1,
    category := "Food" }

/-- A raw row whose date matches none of the four formats. -/
def exBadRow : RawRow :=
  [("date", "not-a-date"), ("description", "Tea"), ("amount", "1.00"),
   ("category", "Misc")]

/-- A config descriptor with the four required keys. -/
def exConfig : ConfigDoc :=
  [("date_field", "Date"), ("description_field", "Desc"), ("amount_field", "Amt"),
   ("category_field", "Cat")]

/-! ## Digit lemmas -/

theorem digitsToNat_nil : digitsToNat [] = 0 := rfl

theorem digitsToNat_foldl (x : ℕ) (l : List Char) :
    l.foldl (fun a c => a * 10 + digitVal c) x = x * 10 ^ l.length + digitsToNat l := by
  induction l generalizing x with
  | nil => simp [digitsToNat]
  | cons c l ih =>
    simp only [List.foldl_cons, digitsToNat, List.length_cons] at *
    rw [ih, ih (0 * 10 + digitVal c)]
    ring

theorem digitsToNat_append (a b : List Char) :
    digitsToNat (a ++ b) = digitsToNat a * 10 ^ b.length + digitsToNat b := by
  have h := digitsToNat_foldl (digitsToNat a) b
  simpa [digitsToNat, List.foldl_append] using h

theorem digitsToNat_cons (c : Char) (l : List Char) :
    digitsToNat (c :: l) = digitVal c * 10 ^ l.length + digitsToNat l := by
  have := digitsToNat_append [c] l
  simpa [digitsToNat] using this

theorem digitsToNat_singleton (c : Char) : digitsToNat [c] = digitVal c := by
  simp [digitsToNat]

theorem digitVal_toDigitChar {d : ℕ} (h : d < 10) : digitVal (toDigitChar d) = d := by
  interval_cases d <;> decide

theorem isDigit_toDigitChar {d : ℕ} (h : d < 10) : (toDigitChar d).isDigit = true := by
  interval_cases d <;> decide

theorem digitVal_lt_ten {c : Char} (h : c.isDigit = true) : digitVal c < 10 := by
  have h48 : 48 ≤ c.toNat ∧ c.toNat ≤ 57 := by
    simp only [Char.isDigit, Bool.and_eq_true, decide_eq_true_eq] at h
    obtain ⟨h1, h2⟩ := h
    exact ⟨h1, h2⟩
  simp only [digitVal]
  omega

theorem digit_eq_toDigitChar {c : Char} (h : c.isDigit = true) :
    c = toDigitChar (digitVal c) := by
  have h48 : 48 ≤ c.toNat ∧ c.toNat ≤ 57 := by
    simp only [Char.isDigit, Bool.and_eq_true, decide_eq_true_eq] at h
    exact h
  have : 48 + digitVal c = c.toNat := by simp only [digitVal]; omega
  rw [toDigitChar, this, Char.ofNat_toNat]

theorem digitsToNat_replicate_zero (j : ℕ) (l : List Char) :
    digitsToNat (List.replicate j '0' ++ l) = digitsToNat l := by
  induction j with
  | zero => simp
  | succ j ih =>
    rw [List.replicate_succ, List.cons_append, digitsToNat_cons]
    simp only [ih]
    have : digitVal '0' = 0 := by decide
    simp [this]

/-! ## Printing lemmas for `natToChars` -/

theorem natToCharsCore_lt {n : ℕ} (fuel : ℕ) (acc : List Char) (h : n < 10) :
    natToCharsCore (fuel + 1) n acc = toDigitChar n :: acc := by
  show (if n < 10 then _ else _) = _
  rw [if_pos h]

theorem natToCharsCore_ge {n : ℕ} (fuel : ℕ) (acc : List Char) (h : ¬ n < 10) :
    natToCharsCore (fuel + 1) n acc =
      natToCharsCore fuel (n / 10) (toDigitChar (n % 10) :: acc) := by
  show (if n < 10 then _ else _) = _
  rw [if_neg h]

theorem natToCharsCore_append (fuel : ℕ) :
    ∀ n acc, n < 10 ^ (fuel + 1) →
      natToCharsCore (fuel + 1) n acc = natToCharsCore (fuel + 1) n [] ++ acc := by
  induction fuel with
  | zero =>
    intro n acc h
    have hn : n < 10 := by simpa using h
    rw [natToCharsCore_lt 0 acc hn, natToCharsCore_lt 0 [] hn]
    simp
  | succ fuel ih =>
    intro n acc h
    by_cases hn : n < 10
    · rw [natToCharsCore_lt (fuel + 1) acc hn, natToCharsCore_lt (fuel + 1) [] hn]
      simp
    · have hdiv : n / 10 < 10 ^ (fuel + 1) := by
        rw [Nat.div_lt_iff_lt_mul (by norm_num)]
        calc n < 10 ^ (fuel + 2) := h
        _ = 10 ^ (fuel + 1) * 10 := by ring
      rw [natToCharsCore_ge (fuel + 1) acc hn, natToCharsCore_ge (fuel + 1) [] hn]
      rw [ih (n / 10) (toDigitChar (n % 10) :: acc) hdiv,
        ih (n / 10) [toDigitChar (n % 10)] hdiv]
      simp
  
theorem natToCharsCore_fuel_inv (fuel : ℕ) :
    ∀ gas n, n < 10 ^ (fuel + 1) → n < 10 ^ (gas + 1) →
      natToCharsCore (fuel + 1) n [] = natToCharsCore (gas + 1) n [] := by
  induction fuel with
  | zero =>
    intro gas n h hg
    have hn : n < 10 := by simpa using h
    rw [natToCharsCore_lt 0 [] hn, natToCharsCore_lt gas [] hn]
  | succ fuel ih =>
    intro gas n h hg
    by_cases hn : n < 10
    · rw [natToCharsCore_lt (fuel + 1) [] hn, natToCharsCore_lt gas [] hn]
    · rcases gas with _ | gas
      · exfalso
        have : n < 10 := by simpa using hg
        exact hn this
      · have hdivf : n / 10 < 10 ^ (fuel + 1) := by
          rw [Nat.div_lt_iff_lt_mul (by norm_num)]
          calc n < 10 ^ (fuel + 2) := h
          _ = 10 ^ (fuel + 1) * 10 := by ring
        have hdivg : n / 10 < 10 ^ (gas + 1) := by
          rw [Nat.div_lt_iff_lt_mul (by norm_num)]
          calc n < 10 ^ (gas + 2) := hg
          _ = 10 ^ (gas + 1) * 10 := by ring
        rw [natToCharsCore_ge (fuel + 1) [] hn, natToCharsCore_ge (gas + 1) [] hn]
        rw [natToCharsCore_append fuel _ _ hdivf, natToCharsCore_append gas _ _ hdivg,
          ih gas (n / 10) hdivf hdivg]

theorem lt_ten_pow_self (n : ℕ) : n < 10 ^ (n + 1) := by
  calc n < 10 ^ n := Nat.lt_pow_self (by norm_num) n
  _ ≤ 10 ^ (n + 1) := Nat.pow_le_pow_right (by norm_num) (Nat.le_succ n)

/-- The defining recursion of `natToChars`, fuel eliminated. -/
theorem natToChars_eq (n : ℕ) :
    natToChars n =
      if n < 10 then [toDigitChar n]
      else natToChars (n / 10) ++ [toDigitChar (n % 10)] := by
  by_cases hn : n < 10
  · rw [if_pos hn, natToChars, natToCharsCore_lt n [] hn]
  · obtain ⟨m, rfl⟩ : ∃ m, n = m + 1 := ⟨n - 1, by omega⟩
    have hq1 : (m + 1) / 10 < 10 ^ (m + 1) := by
      calc (m + 1) / 10 < m + 1 := Nat.div_lt_self (by omega) (by norm_num)
      _ < 10 ^ (m + 1) := Nat.lt_pow_self (by norm_num) (m + 1)
    have hq2 : (m + 1) / 10 < 10 ^ ((m + 1) / 10 + 1) := lt_ten_pow_self _
    rw [if_neg hn, natToChars, natToChars, natToCharsCore_ge (m + 1) [] hn]
    obtain ⟨p, rfl⟩ : ∃ p, m = p + 1 := ⟨m - 1, by omega⟩
    rw [natToCharsCore_append (p + 1) _ _ hq1,
      natToCharsCore_fuel_inv (p + 1) ((p + 1 + 1) / 10) _ hq1 hq2]

theorem natToChars_all_digits (n : ℕ) : ∀ c ∈ natToChars n, c.isDigit = true := by
  induction n using Nat.strong_induction_on with
  | _ n ih =>
    rw [natToChars_eq]
    by_cases hn : n < 10
    · simp only [if_pos hn, List.mem_singleton]
      rintro c rfl
      exact isDigit_toDigitChar hn
    · have hpos : 0 < n := by omega
      simp only [if_neg hn, List.mem_append, List.mem_singleton]
      rintro c (hc | rfl)
      · exact ih (n / 10) (Nat.div_lt_self hpos (by norm_num)) c hc
      · exact isDigit_toDigitChar (Nat.mod_lt n (by norm_num))

theorem digitsToNat_natToChars (n : ℕ) : digitsToNat (natToChars n) = n := by
  induction n using Nat.strong_induction_on with
  | _ n ih =>
    rw [natToChars_eq]
    by_cases hn : n < 10
    · simp only [if_pos hn, digitsToNat_singleton]
      exact digitVal_toDigitChar hn
    · have hpos : 0 < n := by omega
      simp only [if_neg hn, digitsToNat_append, digitsToNat_singleton, List.length_singleton]
      rw [ih (n / 10) (Nat.div_lt_self hpos (by norm_num)),
        digitVal_toDigitChar (Nat.mod_lt n (by norm_num))]
      omega

theorem natToChars_ne_nil (n : ℕ) : natToChars n ≠ [] := by
  rw [natToChars_eq]
  by_cases hn : n < 10 <;> simp [hn]

theorem natToChars_length_le {n k : ℕ} (hk : 1 ≤ k) (h : n < 10 ^ k) :
    (natToChars n).length ≤ k := by
  induction k generalizing n with
  | zero => omega
  | succ k ih =>
    rw [natToChars_eq]
    by_cases hn : n < 10
    · simp [hn]
    · have hk1 : 1 ≤ k := by
        by_contra hk0
        have hz : k = 0 := by omega
        subst hz
        simp at h
        omega
      have hdiv : n / 10 < 10 ^ k := by
        rw [Nat.div_lt_iff_lt_mul (by norm_num)]
        calc n < 10 ^ (k + 1) := h
        _ = 10 ^ k * 10 := by ring
      simp only [if_neg hn, List.length_append, List.length_singleton]
      have := ih hk1 hdiv
      omega

theorem natToChars_length_pos (n : ℕ) : 1 ≤ (natToChars n).length := by
  cases h : natToChars n with
  | nil => exact absurd h (natToChars_ne_nil n)
  | cons a l => simp

/-! ## Padding and character classes -/

theorem padNat_length {k n : ℕ} (hk : 1 ≤ k) (h : n < 10 ^ k) :
    (padNat k n).length = k := by
  have hle := natToChars_length_le hk h
  simp only [padNat, List.length_append, List.length_replicate]
  omega

theorem padNat_all_digits (k n : ℕ) : ∀ c ∈ padNat k n, c.isDigit = true := by
  intro c hc
  rcases List.mem_append.mp hc with h | h
  · rcases List.eq_of_mem_replicate h with rfl
    decide
  · exact natToChars_all_digits n c h

theorem digitsToNat_padNat (k n : ℕ) : digitsToNat (padNat k n) = n := by
  rw [padNat, digitsToNat_replicate_zero, digitsToNat_natToChars]

theorem digit_toNat_bounds {c : Char} (h : c.isDigit = true) :
    48 ≤ c.toNat ∧ c.toNat ≤ 57 := by
  simp only [Char.isDigit, Bool.and_eq_true, decide_eq_true_eq] at h
  exact h

theorem digit_zero_of_val_zero {c : Char} (h : c.isDigit = true) (hv : digitVal c = 0) :
    c = '0' := by
  rw [digit_eq_toDigitChar h, hv]
  decide

/-- Every property of digit characters can be checked on the ten digits. -/
theorem digit_cases {c : Char} (h : c.isDigit = true) (P : Char → Prop)
    (hP : ∀ d, d < 10 → P (toDigitChar d)) : P c := by
  rw [digit_eq_toDigitChar h]
  exact hP _ (digitVal_lt_ten h)

theorem digit_not_space {c : Char} (h : c.isDigit = true) : pyIsSpace c = false := by
  refine digit_cases h (fun c => pyIsSpace c = false) ?_
  intro d hd
  interval_cases d <;> decide

theorem digit_not_special {c : Char} (h : c.isDigit = true) :
    c ≠ '_' ∧ c ≠ '$' ∧ c ≠ '£' ∧ c ≠ '€' ∧ c ≠ ',' ∧ c ≠ '.' ∧ c ≠ '-' ∧ c ≠ '+' ∧
      c ≠ 'e' ∧ c ≠ 'E' := by
  refine digit_cases h
    (fun x => x ≠ '_' ∧ x ≠ '$' ∧ x ≠ '£' ∧ x ≠ '€' ∧ x ≠ ',' ∧ x ≠ '.' ∧ x ≠ '-' ∧
      x ≠ '+' ∧ x ≠ 'e' ∧ x ≠ 'E') ?_
  intro d hd
  interval_cases d <;> decide

theorem toLowerAscii_digit {c : Char} (h : c.isDigit = true) : toLowerAscii c = c := by
  refine digit_cases h (fun c => toLowerAscii c = c) ?_
  intro d hd
  interval_cases d <;> decide

/-! ## Stripping and scanning lemmas -/

theorem dropWhile_eq_self_of_not {p : Char → Bool} {l : List Char}
    (h : ∀ c ∈ l, p c = false) : l.dropWhile p = l := by
  cases l with
  | nil => rfl
  | cons a l => simp [List.dropWhile_cons, h a (List.mem_cons_self a l)]

theorem pyStripList_eq_self {l : List Char} (h : ∀ c ∈ l, pyIsSpace c = false) :
    pyStripList l = l := by
  rw [pyStripList, dropWhile_eq_self_of_not h,
    dropWhile_eq_self_of_not (fun c hc => h c (List.mem_reverse.mp hc)), List.reverse_reverse]

theorem takeWhile_all_append {p : Char → Bool} {a : List Char} (b : List Char)
    (h : ∀ c ∈ a, p c = true) : (a ++ b).takeWhile p = a ++ b.takeWhile p := by
  induction a with
  | nil => simp
  | cons x a ih =>
    have hx : p x = true := h x (List.mem_cons_self x a)
    simp only [List.cons_append, List.takeWhile_cons, hx, if_true]
    rw [ih (fun c hc => h c (List.mem_cons_of_mem x hc))]

theorem dropWhile_all_append {p : Char → Bool} {a : List Char} (b : List Char)
    (h : ∀ c ∈ a, p c = true) : (a ++ b).dropWhile p = b.dropWhile p := by
  induction a with
  | nil => simp
  | cons x a ih =>
    have hx : p x = true := h x (List.mem_cons_self x a)
    simp only [List.cons_append, List.dropWhile_cons, hx, if_true]
    exact ih (fun c hc => h c (List.mem_cons_of_mem x hc))

theorem takeWhile_eq_self_of_all {p : Char → Bool} {a : List Char}
    (h : ∀ c ∈ a, p c = true) : a.takeWhile p = a := by
  have := takeWhile_all_append (p := p) [] h
  simpa using this

theorem dropWhile_eq_nil_of_all {p : Char → Bool} {a : List Char}
    (h : ∀ c ∈ a, p c = true) : a.dropWhile p = [] := by
  have := dropWhile_all_append (p := p) [] h
  simpa using this

theorem dropWhile_head_false {p : Char → Bool} {c : Char} {t : List Char} :
    ∀ {l : List Char}, l.dropWhile p = c :: t → p c = false := by
  intro l
  induction l with
  | nil => intro h; simp at h
  | cons a l ih =>
    intro h
    rw [List.dropWhile_cons] at h
    by_cases hpa : p a = true
    · rw [if_pos hpa] at h
      exact ih h
    · rw [if_neg hpa] at h
      injection h with h1 h2
      subst h1
      simpa using hpa

theorem pyStripList_head {l : List Char} {c : Char} {t : List Char}
    (h : pyStripList l = c :: t) : pyIsSpace c = false := by
  obtain ⟨w, hw⟩ :=
    List.dropWhile_suffix (l := (l.dropWhile pyIsSpace).reverse) (p := pyIsSpace)
  have hu : l.dropWhile pyIsSpace = pyStripList l ++ w.reverse := by
    have := congrArg List.reverse hw
    simpa [pyStripList] using this.symm
  rw [h] at hu
  exact dropWhile_head_false hu

theorem pyStripList_last {l : List Char} {c : Char} {t : List Char}
    (h : pyStripList l = t ++ [c]) : pyIsSpace c = false := by
  have h2 : (l.dropWhile pyIsSpace).reverse.dropWhile pyIsSpace = c :: t.reverse := by
    have h3 := congrArg List.reverse h
    simpa [pyStripList] using h3
  exact dropWhile_head_false h2

theorem pyStripList_idem (l : List Char) : pyStripList (pyStripList l) = pyStripList l := by
  rcases hs : pyStripList l with _ | ⟨c, t⟩
  · simp [pyStripList]
  · have hc := pyStripList_head hs
    rcases List.eq_nil_or_concat (c :: t) with hnil | ⟨t2, c2, hct⟩
    · simp at hnil
    · rw [List.concat_eq_append] at hct
      have hc2 : pyIsSpace c2 = false := pyStripList_last (l := l) (by rw [hs, hct])
      have h1 : (c :: t).dropWhile pyIsSpace = c :: t := by
        simp [List.dropWhile_cons, hc]
      rw [pyStripList, h1, hct]
      have h2 : (t2 ++ [c2]).reverse.dropWhile pyIsSpace = (t2 ++ [c2]).reverse := by
        simp [List.reverse_append, List.dropWhile_cons, hc2]
      rw [h2, List.reverse_reverse]

theorem pyStrip_idem (s : String) : pyStrip (pyStrip s) = pyStrip s := by
  simp [pyStrip, pyStripList_idem]

/-! ## Date format lemmas -/

theorem ite_some_inv {α : Type} {c : Prop} [Decidable c] {a t : α}
    (h : (if c then some a else none) = some t) : c ∧ a = t := by
  split at h
  · exact ⟨by assumption, Option.some.inj h⟩
  · exact absurd h (by simp)

theorem andThen_eq_some {A B : Type} {x : Option A} {f : A → Option B} {b : B}
    (h : andThen x f = some b) : ∃ a, x = some a ∧ f a = some b := by
  cases x with
  | none => exact absurd h (by simp [andThen])
  | some a => exact ⟨a, rfl, h⟩

theorem parseYmdDash_valid {l : List Char} {t : ℕ × ℕ × ℕ}
    (h : parseYmdDash l = some t) : validDate t.1 t.2.1 t.2.2 = true := by
  unfold parseYmdDash at h
  obtain ⟨yr, h1, h⟩ := andThen_eq_some h
  obtain ⟨r2, h2, h⟩ := andThen_eq_some h
  obtain ⟨mr, h3, h⟩ := andThen_eq_some h
  obtain ⟨r4, h4, h⟩ := andThen_eq_some h
  obtain ⟨dr, h5, h⟩ := andThen_eq_some h
  obtain ⟨hcond, ht⟩ := ite_some_inv h
  subst ht
  exact hcond.2

theorem parseMdySlash_valid {l : List Char} {t : ℕ × ℕ × ℕ}
    (h : parseMdySlash l = some t) : validDate t.1 t.2.1 t.2.2 = true := by
  unfold parseMdySlash at h
  obtain ⟨mr, h1, h⟩ := andThen_eq_some h
  obtain ⟨r2, h2, h⟩ := andThen_eq_some h
  obtain ⟨dr, h3, h⟩ := andThen_eq_some h
  obtain ⟨r4, h4, h⟩ := andThen_eq_some h
  obtain ⟨yr, h5, h⟩ := andThen_eq_some h
  obtain ⟨hcond, ht⟩ := ite_some_inv h
  subst ht
  exact hcond.2

theorem parseDmySlash_valid {l : List Char} {t : ℕ × ℕ × ℕ}
    (h : parseDmySlash l = some t) : validDate t.1 t.2.1 t.2.2 = true := by
  unfold parseDmySlash at h
  obtain ⟨dr, h1, h⟩ := andThen_eq_some h
  obtain ⟨r2, h2, h⟩ := andThen_eq_some h
  obtain ⟨mr, h3, h⟩ := andThen_eq_some h
  obtain ⟨r4, h4, h⟩ := andThen_eq_some h
  obtain ⟨yr, h5, h⟩ := andThen_eq_some h
  obtain ⟨hcond, ht⟩ := ite_some_inv h
  subst ht
  exact hcond.2

theorem parseYmdSlash_valid {l : List Char} {t : ℕ × ℕ × ℕ}
    (h : parseYmdSlash l = some t) : validDate t.1 t.2.1 t.2.2 = true := by
  unfold parseYmdSlash at h
  obtain ⟨yr, h1, h⟩ := andThen_eq_some h
  obtain ⟨r2, h2, h⟩ := andThen_eq_some h
  obtain ⟨mr, h3, h⟩ := andThen_eq_some h
  obtain ⟨r4, h4, h⟩ := andThen_eq_some h
  obtain ⟨dr, h5, h⟩ := andThen_eq_some h
  obtain ⟨hcond, ht⟩ := ite_some_inv h
  subst ht
  exact hcond.2

theorem standardize_date_ok_inv {s r : String} (h : standardize_date s = .ok r) :
    ∃ t : ℕ × ℕ × ℕ, validDate t.1 t.2.1 t.2.2 = true ∧ r = formatDate3 t := by
  unfold standardize_date at h
  rcases h1 : parseYmdDash s.data with _ | t1
  · rw [h1] at h
    rcases h2 : parseMdySlash s.data with _ | t2
    · rw [h2] at h
      rcases h3 : parseDmySlash s.data with _ | t3
      · rw [h3] at h
        rcases h4 : parseYmdSlash s.data with _ | t4
        · rw [h4] at h
          exact absurd h (by simp)
        · rw [h4] at h
          exact ⟨t4, parseYmdSlash_valid h4, (Except.ok.inj h).symm⟩
      · rw [h3] at h
        exact ⟨t3, parseDmySlash_valid h3, (Except.ok.inj h).symm⟩
    · rw [h2] at h
      exact ⟨t2, parseMdySlash_valid h2, (Except.ok.inj h).symm⟩
  · rw [h1] at h
    exact ⟨t1, parseYmdDash_valid h1, (Except.ok.inj h).symm⟩

theorem andThen_some {A B : Type} (a : A) (f : A → Option B) :
    andThen (some a) f = f a := rfl

theorem daysInMonth_le (y m : ℕ) : daysInMonth y m ≤ 31 := by
  unfold daysInMonth
  split_ifs <;> omega

theorem parseYear4_padNat {y : ℕ} (hy : y < 10000) (rest : List Char) :
    parseYear4 (padNat 4 y ++ rest) = some (y, rest) := by
  have hlen : (padNat 4 y).length = 4 := padNat_length (by norm_num) (by norm_num; omega)
  obtain ⟨a, b, c, d, habcd⟩ : ∃ a b c d, padNat 4 y = [a, b, c, d] := by
    rcases hl : padNat 4 y with _ | ⟨a, _ | ⟨b, _ | ⟨c, _ | ⟨d, _ | ⟨e, t⟩⟩⟩⟩⟩ <;>
      rw [hl] at hlen <;> simp_all
  have hdig := padNat_all_digits 4 y
  rw [habcd] at hdig
  have hval := digitsToNat_padNat 4 y
  rw [habcd] at hval
  rw [habcd]
  show (if a.isDigit ∧ b.isDigit ∧ c.isDigit ∧ d.isDigit
      then some (digitsToNat [a, b, c, d], rest) else none) = some (y, rest)
  rw [if_pos ⟨hdig a (by simp), hdig b (by simp), hdig c (by simp), hdig d (by simp)⟩, hval]

theorem parseMonth_padNat {m : ℕ} (h1 : 1 ≤ m) (h2 : m ≤ 12) (rest : List Char) :
    parseMonth (padNat 2 m ++ rest) = some (m, rest) := by
  have hlen : (padNat 2 m).length = 2 := padNat_length (by norm_num) (by norm_num; omega)
  obtain ⟨a, b, hab⟩ := List.length_eq_two.mp hlen
  have hdig := padNat_all_digits 2 m
  rw [hab] at hdig
  have ha : a.isDigit = true := hdig a (by simp)
  have hb : b.isDigit = true := hdig b (by simp)
  have hv : digitVal a * 10 + digitVal b = m := by
    have hval := digitsToNat_padNat 2 m
    rw [hab] at hval
    simp [digitsToNat] at hval
    omega
  rw [hab]
  show (if a.isDigit then
      (if b.isDigit then
        (if (10 ≤ digitVal a * 10 + digitVal b ∧ digitVal a * 10 + digitVal b ≤ 12) ∨
            (a = '0' ∧ 1 ≤ digitVal a * 10 + digitVal b)
         then some (digitVal a * 10 + digitVal b, rest)
         else if 1 ≤ digitVal a then some (digitVal a, b :: rest) else none)
       else if 1 ≤ digitVal a then some (digitVal a, b :: rest) else none)
     else none) = some (m, rest)
  rw [if_pos ha, if_pos hb]
  by_cases hm10 : 10 ≤ m
  · rw [if_pos (Or.inl ⟨by omega, by omega⟩), hv]
  · have hvb := digitVal_lt_ten hb
    have hva : digitVal a = 0 := by omega
    have ha0 : a = '0' := digit_zero_of_val_zero ha hva
    rw [if_pos (Or.inr ⟨ha0, by omega⟩), hv]

theorem parseDay_padNat {d : ℕ} (h1 : 1 ≤ d) (h2 : d ≤ 31) (rest : List Char) :
    parseDay (padNat 2 d ++ rest) = some (d, rest) := by
  have hlen : (padNat 2 d).length = 2 := padNat_length (by norm_num) (by norm_num; omega)
  obtain ⟨a, b, hab⟩ := List.length_eq_two.mp hlen
  have hdig := padNat_all_digits 2 d
  rw [hab] at hdig
  have ha : a.isDigit = true := hdig a (by simp)
  have hb : b.isDigit = true := hdig b (by simp)
  have hv : digitVal a * 10 + digitVal b = d := by
    have hval := digitsToNat_padNat 2 d
    rw [hab] at hval
    simp [digitsToNat] at hval
    omega
  rw [hab]
  show (if a.isDigit then
      (if b.isDigit then
        (if (10 ≤ digitVal a * 10 + digitVal b ∧ digitVal a * 10 + digitVal b ≤ 31) ∨
            (a = '0' ∧ 1 ≤ digitVal a * 10 + digitVal b)
         then some (digitVal a * 10 + digitVal b, rest)
         else if 1 ≤ digitVal a then some (digitVal a, b :: rest) else none)
       else if 1 ≤ digitVal a then some (digitVal a, b :: rest) else none)
     else none) = some (d, rest)
  rw [if_pos ha, if_pos hb]
  by_cases hd10 : 10 ≤ d
  · rw [if_pos (Or.inl ⟨by omega, by omega⟩), hv]
  · have hvb := digitVal_lt_ten hb
    have hva : digitVal a = 0 := by omega
    have ha0 : a = '0' := digit_zero_of_val_zero ha hva
    rw [if_pos (Or.inr ⟨ha0, by omega⟩), hv]

theorem validDate_bounds {y m d : ℕ} (h : validDate y m d = true) :
    1 ≤ y ∧ y ≤ 9999 ∧ 1 ≤ m ∧ m ≤ 12 ∧ 1 ≤ d ∧ d ≤ 31 := by
  simp only [validDate, Bool.and_eq_true, decide_eq_true_eq] at h
  have := daysInMonth_le y m
  omega

theorem parseYmdDash_formatDate {y m d : ℕ} (h : validDate y m d = true) :
    parseYmdDash (formatDate y m d).data = some (y, m, d) := by
  obtain ⟨hy1, hy2, hm1, hm2, hd1, hd2⟩ := validDate_bounds h
  have hdata : (formatDate y m d).data =
      padNat 4 y ++ ('-' :: (padNat 2 m ++ ('-' :: (padNat 2 d ++ [])))) := by
    show (padNat 4 y ++ ('-' :: padNat 2 m) ++ ('-' :: padNat 2 d)) = _
    simp [List.append_assoc]
  rw [parseYmdDash, hdata, parseYear4_padNat (by omega), andThen_some]
  show andThen (expectChar '-' ('-' :: _)) _ = _
  rw [show expectChar '-' ('-' :: (padNat 2 m ++ ('-' :: (padNat 2 d ++ [])))) =
      some (padNat 2 m ++ ('-' :: (padNat 2 d ++ []))) from rfl, andThen_some]
  rw [parseMonth_padNat hm1 hm2, andThen_some]
  rw [show expectChar '-' ('-' :: (padNat 2 d ++ [])) = some (padNat 2 d ++ []) from rfl,
    andThen_some]
  rw [parseDay_padNat hd1 hd2, andThen_some]
  rw [if_pos ⟨rfl, h⟩]

theorem standardize_date_formatDate {y m d : ℕ} (h : validDate y m d = true) :
    standardize_date (formatDate y m d) = .ok (formatDate y m d) := by
  unfold standardize_date
  rw [parseYmdDash_formatDate h]
  rfl

/-! ## Decimal canonicalization lemmas -/

theorem decimalReduce_val (k : ℕ) : ∀ n : ℤ,
    decValue (decimalReduce n k).1 (decimalReduce n k).2 = decValue n k := by
  induction k with
  | zero => intro n; rfl
  | succ k ih =>
    intro n
    by_cases hdvd : (10 : ℤ) ∣ n
    · obtain ⟨c, rfl⟩ := hdvd
      have hred : decimalReduce (10 * c) (k + 1) = decimalReduce c k := by
        show (if (10 : ℤ) ∣ 10 * c then decimalReduce (10 * c / 10) k else _) = _
        rw [if_pos ⟨c, rfl⟩, Int.mul_ediv_cancel_left c (by norm_num)]
      rw [hred, ih c]
      simp only [decValue]
      push_cast
      rw [pow_succ]
      field_simp
      ring
    · have hred : decimalReduce n (k + 1) = (n, k + 1) := by
        show (if (10 : ℤ) ∣ n then _ else _) = _
        rw [if_neg hdvd]
      rw [hred]

theorem decimalReduce_canonical (k : ℕ) : ∀ n : ℤ,
    (decimalReduce n k).2 = 0 ∨ ¬ (10 : ℤ) ∣ (decimalReduce n k).1 := by
  induction k with
  | zero => intro n; exact Or.inl rfl
  | succ k ih =>
    intro n
    by_cases hdvd : (10 : ℤ) ∣ n
    · have hred : decimalReduce n (k + 1) = decimalReduce (n / 10) k := by
        show (if (10 : ℤ) ∣ n then _ else _) = _
        rw [if_pos hdvd]
      rw [hred]
      exact ih (n / 10)
    · have hred : decimalReduce n (k + 1) = (n, k + 1) := by
        show (if (10 : ℤ) ∣ n then _ else _) = _
        rw [if_neg hdvd]
      rw [hred]
      exact Or.inr hdvd

theorem decimalReduce_id {n : ℤ} {k : ℕ} (h : k = 0 ∨ ¬ (10 : ℤ) ∣ n) :
    decimalReduce n k = (n, k) := by
  rcases h with rfl | hnd
  · rfl
  · cases k with
    | zero => rfl
    | succ k =>
      show (if (10 : ℤ) ∣ n then _ else _) = _
      rw [if_neg hnd]

theorem mkFinite_canonical (neg : Bool) (ip fp : List Char) (e : ℤ) :
    (mkFinite neg ip fp e).canonical := by
  unfold mkFinite PyFloat.canonical
  exact decimalReduce_canonical _ _

/-! ## Float parsing lemmas -/

theorem mkFinite_val (neg : Bool) (ip fp : List Char) (e : ℤ) :
    ∃ n k, mkFinite neg ip fp e = .finite n k ∧
      decValue n k = (if neg then (-1 : ℚ) else 1) *
        ((digitsToNat (ip ++ fp) : ℚ) * 10 ^ e.toNat / 10 ^ (fp.length + (-e).toNat)) := by
  refine ⟨_, _, rfl, ?_⟩
  rw [decimalReduce_val]
  simp only [decValue]
  cases neg <;> simp <;> push_cast <;> ring

theorem mkFinite_zero_val (neg : Bool) (ip fp : List Char) :
    ∃ n k, mkFinite neg ip fp 0 = .finite n k ∧
      decValue n k = (if neg then (-1 : ℚ) else 1) *
        ((digitsToNat ip : ℚ) + (digitsToNat fp : ℚ) / 10 ^ fp.length) := by
  obtain ⟨n, k, hmk, hval⟩ := mkFinite_val neg ip fp 0
  refine ⟨n, k, hmk, ?_⟩
  rw [hval, digitsToNat_append]
  have h10 : ((10 : ℚ) ^ fp.length) ≠ 0 := by positivity
  cases neg <;> simp <;> push_cast <;> field_simp <;> ring

theorem underscoresOkAux_of_no :
    ∀ (l : List Char) (prev : Char), (∀ c ∈ l, c ≠ '_') → underscoresOkAux prev l = true := by
  intro l
  induction l with
  | nil => intro prev h; rfl
  | cons c rest ih =>
    intro prev h
    have hc : c ≠ '_' := h c (List.mem_cons_self c rest)
    simp only [underscoresOkAux, if_neg hc]
    exact ih c (fun x hx => h x (List.mem_cons_of_mem c hx))

theorem underscoresOk_of_no {l : List Char} (h : ∀ c ∈ l, c ≠ '_') :
    underscoresOk l = true := by
  cases l with
  | nil => rfl
  | cons c rest =>
    have hc : c ≠ '_' := h c (List.mem_cons_self c rest)
    simp only [underscoresOk, Bool.and_eq_true, decide_eq_true_eq]
    exact ⟨hc, underscoresOkAux_of_no rest c (fun x hx => h x (List.mem_cons_of_mem c hx))⟩

theorem filter_ne_eq_self {l : List Char} {ch : Char} (h : ∀ c ∈ l, c ≠ ch) :
    l.filter (fun c => c ≠ ch) = l := by
  apply List.filter_eq_self.mpr
  intro a ha
  simpa using h a ha

theorem digit_ne_letters {c : Char} (h : c.isDigit = true) : c ≠ 'i' ∧ c ≠ 'n' := by
  refine digit_cases h (fun x => x ≠ 'i' ∧ x ≠ 'n') ?_
  intro d hd
  interval_cases d <;> decide

theorem parseAfterSign_digit_head {c : Char} (hc : c.isDigit = true) (t : List Char)
    (neg : Bool) : parseAfterSign neg (c :: t) = parseDecimalSci neg (c :: t) := by
  have hlow : toLowerAscii c = c := toLowerAscii_digit hc
  obtain ⟨hi, hn⟩ := digit_ne_letters hc
  unfold parseAfterSign
  rw [if_neg, if_neg]
  · intro h
    simp only [List.map_cons, List.cons.injEq] at h
    rw [hlow] at h
    exact hn h.1
  · rintro (h | h) <;>
      (simp only [List.map_cons, List.cons.injEq] at h; rw [hlow] at h; exact hi h.1)

theorem parseSigned_neg (r : List Char) : parseSigned ('-' :: r) = parseAfterSign true r :=
  rfl

theorem parseSigned_digit_head {c : Char} (hc : c.isDigit = true) (t : List Char) :
    parseSigned (c :: t) = parseAfterSign false (c :: t) := by
  unfold parseSigned
  split
  · rename_i r heq
    injection heq with h1 h2
    subst h1
    exact absurd hc (by decide)
  · rename_i r heq
    injection heq with h1 h2
    subst h1
    exact absurd hc (by decide)
  · rfl

theorem parseDecimalSci_plain (neg : Bool) {ip fp : List Char}
    (hip : ip ≠ []) (hdip : ∀ c ∈ ip, c.isDigit = true)
    (hdfp : ∀ c ∈ fp, c.isDigit = true) :
    parseDecimalSci neg (ip ++ (if fp = [] then [] else '.' :: fp)) =
      some (mkFinite neg ip fp 0) := by
  by_cases hfp : fp = []
  · subst hfp
    rw [if_pos rfl, List.append_nil]
    unfold parseDecimalSci
    rw [takeWhile_eq_self_of_all hdip, dropWhile_eq_nil_of_all hdip]
    show (if ip = [] then none else finishExp neg ip [] []) = _
    rw [if_neg hip]
    rfl
  · rw [if_neg hfp]
    unfold parseDecimalSci
    rw [takeWhile_all_append ('.' :: fp) hdip, dropWhile_all_append ('.' :: fp) hdip]
    have hdot : ('.' :: fp).takeWhile Char.isDigit = [] := by
      simp [List.takeWhile_cons]
    have hdot2 : ('.' :: fp).dropWhile Char.isDigit = '.' :: fp := by
      simp [List.dropWhile_cons]
    rw [hdot, hdot2, List.append_nil]
    show (if ip = [] ∧ fp.takeWhile Char.isDigit = [] then none
      else finishExp neg ip (fp.takeWhile Char.isDigit) (fp.dropWhile Char.isDigit)) = _
    rw [takeWhile_eq_self_of_all hdfp, dropWhile_eq_nil_of_all hdfp,
      if_neg (fun hand => hip hand.1)]
    rfl

theorem pyFloatParse_plain (neg : Bool) (ip fp : List Char)
    (hip : ip ≠ []) (hdip : ∀ c ∈ ip, c.isDigit = true)
    (hdfp : ∀ c ∈ fp, c.isDigit = true) :
    pyFloatParse ((if neg then ['-'] else []) ++ ip ++ (if fp = [] then [] else '.' :: fp)) =
      some (mkFinite neg ip fp 0) := by
  set fpart := (if fp = [] then [] else '.' :: fp) with hfpart
  have hmem : ∀ c ∈ (if neg then ['-'] else []) ++ ip ++ fpart,
      c.isDigit = true ∨ c = '-' ∨ c = '.' := by
    intro c hc
    rcases List.mem_append.mp hc with hc1 | hc2
    · rcases List.mem_append.mp hc1 with hs | hi
      · cases neg with
        | true =>
          have hc' : c = '-' := by simpa using hs
          exact Or.inr (Or.inl hc')
        | false => simp at hs
      · exact Or.inl (hdip c hi)
    · rw [hfpart] at hc2
      by_cases h : fp = []
      · rw [if_pos h] at hc2
        simp at hc2
      · rw [if_neg h] at hc2
        rcases List.mem_cons.mp hc2 with rfl | hf
        · exact Or.inr (Or.inr rfl)
        · exact Or.inl (hdfp c hf)
  have hnospace : ∀ c ∈ (if neg then ['-'] else []) ++ ip ++ fpart, pyIsSpace c = false := by
    intro c hc
    rcases hmem c hc with h | rfl | rfl
    · exact digit_not_space h
    · decide
    · decide
  have hnous : ∀ c ∈ (if neg then ['-'] else []) ++ ip ++ fpart, c ≠ '_' := by
    intro c hc
    rcases hmem c hc with h | rfl | rfl
    · exact (digit_not_special h).1
    · decide
    · decide
  unfold pyFloatParse
  rw [pyStripList_eq_self hnospace, if_pos (underscoresOk_of_no hnous),
    filter_ne_eq_self hnous]
  obtain ⟨c0, ip', rfl⟩ : ∃ c0 ip', ip = c0 :: ip' := by
    cases ip with
    | nil => exact absurd rfl hip
    | cons a t => exact ⟨a, t, rfl⟩
  have hc0 : c0.isDigit = true := hdip c0 (List.mem_cons_self c0 ip')
  cases neg with
  | false =>
    have hl : (if (false : Bool) then ['-'] else []) ++ (c0 :: ip') ++ fpart =
        c0 :: (ip' ++ fpart) := by simp
    rw [hl, parseSigned_digit_head hc0, parseAfterSign_digit_head hc0]
    have hmain := parseDecimalSci_plain false hip hdip hdfp
    simpa [List.cons_append] using hmain
  | true =>
    have hl : (if (true : Bool) then ['-'] else []) ++ (c0 :: ip') ++ fpart =
        '-' :: (c0 :: (ip' ++ fpart)) := by simp
    rw [hl, parseSigned_neg, parseAfterSign_digit_head hc0]
    have hmain := parseDecimalSci_plain true hip hdip hdfp
    simpa [List.cons_append] using hmain

theorem finishExp_canonical {neg : Bool} {ip fp r : List Char} {f : PyFloat}
    (h : finishExp neg ip fp r = some f) : f.canonical := by
  unfold finishExp at h
  split at h
  · rw [Option.some.injEq] at h
    subst h
    exact mkFinite_canonical _ _ _ _
  · split at h
    · dsimp only at h
      split at h
      · exact absurd h (by simp)
      · rw [Option.some.injEq] at h
        subst h
        exact mkFinite_canonical _ _ _ _
    · exact absurd h (by simp)

theorem parseDecimalSci_canonical {neg : Bool} {l : List Char} {f : PyFloat}
    (h : parseDecimalSci neg l = some f) : f.canonical := by
  unfold parseDecimalSci at h
  dsimp only at h
  split at h
  · split at h
    · exact absurd h (by simp)
    · exact finishExp_canonical h
  · split at h
    · exact absurd h (by simp)
    · exact finishExp_canonical h

theorem parseAfterSign_canonical {neg : Bool} {l : List Char} {f : PyFloat}
    (h : parseAfterSign neg l = some f) : f.canonical := by
  unfold parseAfterSign at h
  dsimp only at h
  split at h
  · rw [Option.some.injEq] at h
    subst h
    trivial
  · split at h
    · rw [Option.some.injEq] at h
      subst h
      trivial
    · exact parseDecimalSci_canonical h

theorem parseSigned_canonical {l : List Char} {f : PyFloat}
    (h : parseSigned l = some f) : f.canonical := by
  unfold parseSigned at h
  split at h <;> exact parseAfterSign_canonical h

theorem pyFloatParse_canonical {l : List Char} {f : PyFloat}
    (h : pyFloatParse l = some f) : f.canonical := by
  unfold pyFloatParse at h
  dsimp only at h
  split at h
  · exact parseSigned_canonical h
  · exact absurd h (by simp)

theorem cleanAmount_eq_self {l : List Char}
    (h : ∀ c ∈ l, c.isDigit = true ∨ c = '-' ∨ c = '.') :
    cleanAmount (String.mk l) = l := by
  have h1 : ∀ c ∈ l, c ≠ '$' := by
    intro c hc
    rcases h c hc with hd | rfl | rfl
    · exact (digit_not_special hd).2.1
    · decide
    · decide
  have h2 : ∀ c ∈ l, c ≠ '£' := by
    intro c hc
    rcases h c hc with hd | rfl | rfl
    · exact (digit_not_special hd).2.2.1
    · decide
    · decide
  have h3 : ∀ c ∈ l, c ≠ '€' := by
    intro c hc
    rcases h c hc with hd | rfl | rfl
    · exact (digit_not_special hd).2.2.2.1
    · decide
    · decide
  have h4 : ∀ c ∈ l, c ≠ ',' := by
    intro c hc
    rcases h c hc with hd | rfl | rfl
    · exact (digit_not_special hd).2.2.2.2.1
    · decide
    · decide
  have h5 : ∀ c ∈ l, pyIsSpace c = false := by
    intro c hc
    rcases h c hc with hd | rfl | rfl
    · exact digit_not_space hd
    · decide
    · decide
  unfold cleanAmount
  show ((pyStripList (((l.filter _).filter _).filter _)).filter _) = l
  rw [filter_ne_eq_self h1, filter_ne_eq_self h2, filter_ne_eq_self h3,
    pyStripList_eq_self h5, filter_ne_eq_self h4]

theorem standardize_amount_mk {l : List Char} {f : PyFloat}
    (h : pyFloatParse (cleanAmount (String.mk l)) = some f) :
    standardize_amount (String.mk l) = .ok f := by
  unfold standardize_amount
  rw [h]

theorem decimalReduce_mul_ten (n : ℤ) : decimalReduce (n * 10) 1 = (n, 0) := by
  show (if (10 : ℤ) ∣ n * 10 then decimalReduce (n * 10 / 10) 0 else _) = _
  rw [if_pos ⟨n, by ring⟩, Int.mul_ediv_cancel n (by norm_num)]
  rfl

theorem standardize_amount_pyFloatStr {f : PyFloat} (hc : f.canonical) :
    standardize_amount (pyFloatStr f) = .ok f := by
  cases f with
  | nan => rfl
  | inf neg => cases neg <;> rfl
  | finite n k =>
    have hdslen := natToChars_length_pos n.natAbs
    have hdsdig := natToChars_all_digits n.natAbs
    by_cases hk : k = 0
    · subst hk
      have hds' : List.replicate (0 + 1 - (natToChars n.natAbs).length) '0' ++
          natToChars n.natAbs = natToChars n.natAbs := by
        have : 0 + 1 - (natToChars n.natAbs).length = 0 := by omega
        rw [this]
        rfl
      have hstr : pyFloatStr (.finite n 0) =
          String.mk ((if n < 0 then ['-'] else []) ++ natToChars n.natAbs ++
            ('.' :: ['0'])) := by
        show String.mk _ = _
        rw [hds']
        have htake : (natToChars n.natAbs).take ((natToChars n.natAbs).length - 0) =
            natToChars n.natAbs := by
          rw [Nat.sub_zero, List.take_length]
        rw [htake]
        simp
      rw [hstr]
      have hplain : ∀ neg : Bool,
          pyFloatParse ((if neg then ['-'] else []) ++ natToChars n.natAbs ++ ['.', '0']) =
          some (mkFinite neg (natToChars n.natAbs) ['0'] 0) := by
        intro neg
        have hpp := pyFloatParse_plain neg (natToChars n.natAbs) ['0']
          (natToChars_ne_nil _) hdsdig
          (by intro c hcm; simp at hcm; subst hcm; decide)
        simpa using hpp
      have hval : ∀ neg : Bool, (neg = decide (n < 0)) →
          mkFinite neg (natToChars n.natAbs) ['0'] 0 = .finite n 0 := by
        intro neg hneg
        unfold mkFinite
        dsimp only
        have hN : digitsToNat (natToChars n.natAbs ++ ['0']) * 10 ^ ((0 : ℤ).toNat) =
            n.natAbs * 10 := by
          rw [digitsToNat_append, digitsToNat_natToChars]
          simp [digitsToNat_singleton]
          decide
        rw [hN]
        have hn0 : (if neg then -((n.natAbs * 10 : ℕ) : ℤ) else ((n.natAbs * 10 : ℕ) : ℤ)) =
            n * 10 := by
          subst hneg
          by_cases hlt : n < 0
          · rw [if_pos (by simpa using hlt)]
            omega
          · rw [if_neg (by simpa using hlt)]
            omega
        rw [hn0]
        show PyFloat.finite (decimalReduce (n * 10) 1).1 (decimalReduce (n * 10) 1).2 = _
        rw [decimalReduce_mul_ten]
      by_cases hlt : n < 0
      · have h1 : (if n < 0 then ['-'] else []) = (if (true : Bool) then ['-'] else []) := by
          rw [if_pos hlt]
          rfl
        rw [h1]
        apply standardize_amount_mk
        rw [cleanAmount_eq_self, hplain true, hval true (by simp [hlt])]
        intro c hcm
        simp only [List.mem_append, List.mem_cons] at hcm
        rcases hcm with (hs | hd) | (rfl | h0)
        · simp at hs
          exact Or.inr (Or.inl hs)
        · exact Or.inl (hdsdig c hd)
        · exact Or.inr (Or.inr rfl)
        · simp at h0
          subst h0
          exact Or.inl (by decide)
      · have h1 : (if n < 0 then ['-'] else []) = (if (false : Bool) then ['-'] else []) := by
          rw [if_neg hlt]
          rfl
        rw [h1]
        apply standardize_amount_mk
        rw [cleanAmount_eq_self, hplain false, hval false (by simp [hlt])]
        intro c hcm
        simp only [List.mem_append, List.mem_cons] at hcm
        rcases hcm with (hs | hd) | (rfl | h0)
        · simp at hs
        · exact Or.inl (hdsdig c hd)
        · exact Or.inr (Or.inr rfl)
        · simp at h0
          subst h0
          exact Or.inl (by decide)
    · -- k ≥ 1
      set ds := natToChars n.natAbs with hds
      set ds' := List.replicate (k + 1 - ds.length) '0' ++ ds with hds'
      have hlen' : ds'.length = (k + 1 - ds.length) + ds.length := by
        simp [hds']
      have hge : k + 1 ≤ ds'.length := by omega
      set cut := ds'.length - k with hcut
      have hcutpos : 1 ≤ cut := by omega
      have hcutle : cut ≤ ds'.length := by omega
      set ip := ds'.take cut with hip
      set fp := ds'.drop cut with hfp
      have hds'dig : ∀ c ∈ ds', c.isDigit = true := by
        intro c hcm
        rcases List.mem_append.mp hcm with hr | hd
        · rcases List.eq_of_mem_replicate hr with rfl
          decide
        · exact hdsdig c hd
      have hipdig : ∀ c ∈ ip, c.isDigit = true := fun c hcm =>
        hds'dig c (List.take_subset _ _ hcm)
      have hfpdig : ∀ c ∈ fp, c.isDigit = true := fun c hcm =>
        hds'dig c (List.drop_subset _ _ hcm)
      have hiplen : ip.length = cut := by
        rw [hip, List.length_take]
        omega
      have hipne : ip ≠ [] := by
        intro hnil
        rw [hnil] at hiplen
        simp at hiplen
        omega
      have hfplen : fp.length = k := by
        rw [hfp, List.length_drop]
        omega
      have hfpne : fp ≠ [] := by
        intro hnil
        rw [hnil] at hfplen
        simp at hfplen
        omega
      have hstr : pyFloatStr (.finite n k) =
          String.mk ((if n < 0 then ['-'] else []) ++ ip ++ ('.' :: fp)) := by
        show String.mk _ = _
        rw [if_neg hk]
      have hval : ∀ neg : Bool, (neg = decide (n < 0)) →
          mkFinite neg ip fp 0 = .finite n k := by
        intro neg hneg
        unfold mkFinite
        dsimp only
        have hN : digitsToNat (ip ++ fp) * 10 ^ ((0 : ℤ).toNat) = n.natAbs := by
          rw [hip, hfp, List.take_append_drop, hds', digitsToNat_replicate_zero,
            digitsToNat_natToChars]
          simp
        rw [hN]
        have hn0 : (if neg then -((n.natAbs : ℕ) : ℤ) else ((n.natAbs : ℕ) : ℤ)) = n := by
          subst hneg
          by_cases hlt : n < 0
          · rw [if_pos (by simpa using hlt)]
            omega
          · rw [if_neg (by simpa using hlt)]
            omega
        rw [hn0, hfplen]
        have hred : decimalReduce n (k + (-(0 : ℤ)).toNat) = (n, k) := by
          have : (-(0 : ℤ)).toNat = 0 := rfl
          rw [this, Nat.add_zero]
          exact decimalReduce_id hc
        rw [hred]
      have hmemall : ∀ neg : Bool, ∀ c ∈ (if neg then ['-'] else []) ++ ip ++ ('.' :: fp),
          c.isDigit = true ∨ c = '-' ∨ c = '.' := by
        intro neg c hcm
        simp only [List.mem_append, List.mem_cons] at hcm
        rcases hcm with (hs | hd) | (rfl | h0)
        · cases neg with
          | true =>
            have : c = '-' := by simpa using hs
            exact Or.inr (Or.inl this)
          | false => simp at hs
        · exact Or.inl (hipdig c hd)
        · exact Or.inr (Or.inr rfl)
        · exact Or.inl (hfpdig c h0)
      have hplain : ∀ neg : Bool,
          pyFloatParse ((if neg then ['-'] else []) ++ ip ++ ('.' :: fp)) =
          some (mkFinite neg ip fp 0) := by
        intro neg
        have := pyFloatParse_plain neg ip fp hipne hipdig hfpdig
        rw [if_neg hfpne] at this
        exact this
      rw [hstr]
      by_cases hlt : n < 0
      · have h1 : (if n < 0 then ['-'] else []) = (if (true : Bool) then ['-'] else []) := by
          rw [if_pos hlt]
          rfl
        rw [h1]
        apply standardize_amount_mk
        rw [cleanAmount_eq_self (hmemall true), hplain true, hval true (by simp [hlt])]
      · have h1 : (if n < 0 then ['-'] else []) = (if (false : Bool) then ['-'] else []) := by
          rw [if_neg hlt]
          rfl
        rw [h1]
        apply standardize_amount_mk
        rw [cleanAmount_eq_self (hmemall false), hplain false, hval false (by simp [hlt])]

/-! ## Processor lemmas -/

theorem standardize_amount_ok_canonical {s : String} {f : PyFloat}
    (h : standardize_amount s = .ok f) : f.canonical := by
  unfold standardize_amount at h
  split at h
  · rename_i v hv
    rw [Except.ok.injEq] at h
    subst h
    exact pyFloatParse_canonical hv
  · exact absurd h (by simp)

theorem processRow_ok_inv {m : FieldMapping} {row : RawRow} {t : Transaction}
    (h : processRow m row = .ok t) :
    standardize_date (rawDate m row) = .ok t.date ∧
    standardize_amount (rawAmount m row) = .ok t.amount ∧
    t.description = pyStrip (rawDescription m row) ∧
    t.category = pyStrip (rawCategory m row) := by
  unfold processRow at h
  split at h
  · exact absurd h (by simp)
  · rename_i date hdate
    split at h
    · exact absurd h (by simp)
    · rename_i amount hamount
      rw [Except.ok.injEq] at h
      subst h
      exact ⟨hdate, hamount, rfl, rfl⟩

theorem processRow_error_inv {m : FieldMapping} {row : RawRow} {e : String}
    (h : processRow m row = .error e) :
    standardize_date (rawDate m row) = .error e ∨
    (∃ date, standardize_date (rawDate m row) = .ok date ∧
      standardize_amount (rawAmount m row) = .error e) := by
  unfold processRow at h
  split at h
  · rename_i e' he
    rw [Except.error.injEq] at h
    subst h
    exact Or.inl he
  · rename_i date hdate
    split at h
    · rename_i e' he
      rw [Except.error.injEq] at h
      subst h
      exact Or.inr ⟨date, hdate, he⟩
    · exact absurd h (by simp)

theorem standardize_date_idem {s r : String} (h : standardize_date s = .ok r) :
    standardize_date r = .ok r := by
  obtain ⟨t, hvalid, rfl⟩ := standardize_date_ok_inv h
  have hfd := standardize_date_formatDate (y := t.1) (m := t.2.1) (d := t.2.2) hvalid
  exact hfd

theorem processRow_roundtrip {m : FieldMapping} {row : RawRow} {t : Transaction}
    (h : processRow m row = .ok t) :
    processRow idMapping (transactionToRow t) = .ok t := by
  obtain ⟨hd, ha, hdesc, hcat⟩ := processRow_ok_inv h
  have h1 : rawDate idMapping (transactionToRow t) = t.date := rfl
  have h2 : rawDescription idMapping (transactionToRow t) = t.description := rfl
  have h3 : rawAmount idMapping (transactionToRow t) = pyFloatStr t.amount := rfl
  have h4 : rawCategory idMapping (transactionToRow t) = t.category := rfl
  have hdate2 : standardize_date t.date = .ok t.date := standardize_date_idem hd
  have hamount2 : standardize_amount (pyFloatStr t.amount) = .ok t.amount :=
    standardize_amount_pyFloatStr (standardize_amount_ok_canonical ha)
  have hdesc2 : pyStrip t.description = t.description := by
    rw [hdesc, pyStrip_idem]
  have hcat2 : pyStrip t.category = t.category := by
    rw [hcat, pyStrip_idem]
  unfold processRow
  rw [h1, hdate2, h3, hamount2, h2, h4, hdesc2, hcat2]

theorem load_transactions_cons (m : FieldMapping) (r : RawRow) (rows : List RawRow)
    (acc : List Transaction) :
    load_transactions m (r :: rows) acc =
      match processRow m r with
      | .ok t => load_transactions m rows (acc ++ [t])
      | .error e => (acc, some ("Error loading transactions: " ++ e)) := rfl

theorem load_transactions_acc (m : FieldMapping) (rows : List RawRow) :
    ∀ acc, load_transactions m rows acc =
      (acc ++ (load_transactions m rows []).1, (load_transactions m rows []).2) := by
  induction rows with
  | nil => intro acc; simp [load_transactions]
  | cons r rows ih =>
    intro acc
    rw [load_transactions_cons m r rows acc, load_transactions_cons m r rows []]
    cases hp : processRow m r with
    | ok t =>
      dsimp only
      simp only [List.nil_append]
      rw [ih (acc ++ [t]), ih [t]]
      simp
    | error e =>
      dsimp only
      simp

theorem normalizeRows_nil (m : FieldMapping) : normalizeRows m [] = .ok [] := rfl

theorem normalizeRows_cons_ok {m : FieldMapping} {r : RawRow} {t : Transaction}
    (rows : List RawRow) (hp : processRow m r = .ok t) {ts : List Transaction}
    (hrest : normalizeRows m rows = .ok ts) :
    normalizeRows m (r :: rows) = .ok (t :: ts) := by
  unfold normalizeRows at hrest ⊢
  rw [load_transactions_cons m r rows [], hp]
  dsimp only
  simp only [List.nil_append]
  rw [load_transactions_acc m rows [t]]
  rcases hload : load_transactions m rows [] with ⟨ts', err⟩
  rw [hload] at hrest
  cases err with
  | none =>
    rw [Except.ok.injEq] at hrest
    subst hrest
    simp
  | some e => exact absurd hrest (by simp)

theorem normalizeRows_cons_ok_err {m : FieldMapping} {r : RawRow} {t : Transaction}
    (rows : List RawRow) (hp : processRow m r = .ok t) {e : String}
    (hrest : normalizeRows m rows = .error e) :
    normalizeRows m (r :: rows) = .error e := by
  unfold normalizeRows at hrest ⊢
  rw [load_transactions_cons m r rows [], hp]
  dsimp only
  simp only [List.nil_append]
  rw [load_transactions_acc m rows [t]]
  rcases hload : load_transactions m rows [] with ⟨ts', err⟩
  rw [hload] at hrest
  cases err with
  | none => exact absurd hrest (by simp)
  | some e' =>
    rw [Except.error.injEq] at hrest
    subst hrest
    simp

theorem normalizeRows_cons_err {m : FieldMapping} {r : RawRow} {e : String}
    (rows : List RawRow) (hp : processRow m r = .error e) :
    normalizeRows m (r :: rows) = .error ("Error loading transactions: " ++ e) := by
  unfold normalizeRows
  rw [load_transactions_cons m r rows [], hp]

theorem normalizeRows_cons_inv {m : FieldMapping} {r : RawRow} {rows : List RawRow}
    {ts : List Transaction} (h : normalizeRows m (r :: rows) = .ok ts) :
    ∃ t ts', processRow m r = .ok t ∧ normalizeRows m rows = .ok ts' ∧ ts = t :: ts' := by
  cases hp : processRow m r with
  | error e =>
    rw [normalizeRows_cons_err rows hp] at h
    exact absurd h (by simp)
  | ok t =>
    cases hrest : normalizeRows m rows with
    | error e =>
      rw [normalizeRows_cons_ok_err rows hp hrest] at h
      exact absurd h (by simp)
    | ok ts' =>
      rw [normalizeRows_cons_ok rows hp hrest] at h
      rw [Except.ok.injEq] at h
      exact ⟨t, ts', rfl, rfl, h.symm⟩

theorem normalizeRows_spec {m : FieldMapping} :
    ∀ {rows : List RawRow} {ts : List Transaction}, normalizeRows m rows = .ok ts →
      ts.length = rows.length ∧
      ∀ i (hi : i < rows.length) (hi' : i < ts.length),
        processRow m (rows.get ⟨i, hi⟩) = .ok (ts.get ⟨i, hi'⟩) := by
  intro rows
  induction rows with
  | nil =>
    intro ts h
    rw [normalizeRows_nil, Except.ok.injEq] at h
    subst h
    exact ⟨rfl, fun i hi _ => absurd hi (by simp)⟩
  | cons r rows ih =>
    intro ts h
    obtain ⟨t, ts', hp, hrest, rfl⟩ := normalizeRows_cons_inv h
    obtain ⟨hlen, hidx⟩ := ih hrest
    refine ⟨by simpa using hlen, ?_⟩
    intro i hi hi'
    cases i with
    | zero => simpa using hp
    | succ j =>
      have hj : j < rows.length := by simpa using hi
      have hj' : j < ts'.length := by simpa using hi'
      simpa using hidx j hj hj'

theorem normalizeRows_all_ok {m : FieldMapping} :
    ∀ {rows : List RawRow} {g : RawRow → Transaction},
      (∀ r ∈ rows, processRow m r = .ok (g r)) →
      normalizeRows m rows = .ok (rows.map g) := by
  intro rows
  induction rows with
  | nil => intro g _; rfl
  | cons r rows ih =>
    intro g h
    rw [List.map_cons]
    exact normalizeRows_cons_ok rows (h r (List.mem_cons_self r rows))
      (ih (fun x hx => h x (List.mem_cons_of_mem r hx)))

theorem normalizeRows_error_at {m : FieldMapping} :
    ∀ (pre : List RawRow) {bad : RawRow} {post : List RawRow} {e : String}
      {ts : List Transaction},
      normalizeRows m pre = .ok ts → processRow m bad = .error e →
      normalizeRows m (pre ++ bad :: post) =
        .error ("Error loading transactions: " ++ e) := by
  intro pre
  induction pre with
  | nil =>
    intro bad post e ts _ hbad
    exact normalizeRows_cons_err post hbad
  | cons r pre ih =>
    intro bad post e ts hpre hbad
    obtain ⟨t, ts', hp, hrest, rfl⟩ := normalizeRows_cons_inv hpre
    rw [List.cons_append]
    exact normalizeRows_cons_ok_err (pre ++ bad :: post) hp (ih hrest hbad)

theorem load_transactions_error_at {m : FieldMapping} :
    ∀ (pre : List RawRow) {bad : RawRow} {post : List RawRow} {e : String}
      {ts : List Transaction},
      load_transactions m pre [] = (ts, none) → processRow m bad = .error e →
      load_transactions m (pre ++ bad :: post) [] =
        (ts, some ("Error loading transactions: " ++ e)) := by
  intro pre
  induction pre with
  | nil =>
    intro bad post e ts hpre hbad
    have hts : ts = [] := by
      have : (([], none) : List Transaction × Option String) = (ts, none) := hpre
      simpa using congrArg Prod.fst this
    subst hts
    rw [List.nil_append, load_transactions_cons m bad post [], hbad]
  | cons r pre ih =>
    intro bad post e ts hpre hbad
    rw [load_transactions_cons m r pre []] at hpre
    cases hp : processRow m r with
    | error e' =>
      rw [hp] at hpre
      dsimp only at hpre
      exact absurd (congrArg Prod.snd hpre) (by simp)
    | ok t =>
      rw [hp] at hpre
      dsimp only at hpre
      simp only [List.nil_append] at hpre
      rw [load_transactions_acc m pre [t]] at hpre
      rcases hload : load_transactions m pre [] with ⟨ts', err⟩
      rw [hload] at hpre
      cases err with
      | some e'' => exact absurd (congrArg Prod.snd hpre) (by simp)
      | none =>
        have hts : ts = [t] ++ ts' := by
          have := congrArg Prod.fst hpre
          simpa using this.symm
        subst hts
        rw [List.cons_append, load_transactions_cons m r (pre ++ bad :: post) [], hp]
        dsimp only
        simp only [List.nil_append]
        rw [load_transactions_acc m (pre ++ bad :: post) [t], ih hload hbad]

theorem normalizeRows_mem_ok {m : FieldMapping} {rows : List RawRow}
    {ts : List Transaction} (h : normalizeRows m rows = .ok ts) :
    ∀ t ∈ ts, ∃ row, processRow m row = .ok t := by
  intro t ht
  obtain ⟨hlen, hidx⟩ := normalizeRows_spec h
  obtain ⟨⟨i, hi'⟩, hget⟩ := List.mem_iff_get.mp ht
  have hi : i < rows.length := by omega
  exact ⟨rows.get ⟨i, hi⟩, by rw [hidx i hi hi', hget]⟩

theorem normalizeRows_roundtrip_list :
    ∀ {ts : List Transaction},
      (∀ t ∈ ts, processRow idMapping (transactionToRow t) = .ok t) →
      normalizeRows idMapping (ts.map transactionToRow) = .ok ts := by
  intro ts
  induction ts with
  | nil => intro _; rfl
  | cons t ts ih =>
    intro h
    rw [List.map_cons]
    exact normalizeRows_cons_ok _ (h t (List.mem_cons_self t ts))
      (ih (fun x hx => h x (List.mem_cons_of_mem t hx)))

theorem isIsoDateShape_formatDate {y m d : ℕ} (h : validDate y m d = true) :
    isIsoDateShape (formatDate y m d) = true := by
  obtain ⟨hy1, hy2, hm1, hm2, hd1, hd2⟩ := validDate_bounds h
  have hylen : (padNat 4 y).length = 4 := padNat_length (by norm_num) (by norm_num; omega)
  have hmlen : (padNat 2 m).length = 2 := padNat_length (by norm_num) (by norm_num; omega)
  have hdlen : (padNat 2 d).length = 2 := padNat_length (by norm_num) (by norm_num; omega)
  obtain ⟨a1, a2, a3, a4, hy⟩ : ∃ a b c e, padNat 4 y = [a, b, c, e] := by
    rcases hl : padNat 4 y with _ | ⟨a, _ | ⟨b, _ | ⟨c, _ | ⟨e, _ | ⟨f, t⟩⟩⟩⟩⟩ <;>
      rw [hl] at hylen <;> simp_all
  obtain ⟨b1, b2, hm⟩ := List.length_eq_two.mp hmlen
  obtain ⟨c1, c2, hd⟩ := List.length_eq_two.mp hdlen
  have hydig := padNat_all_digits 4 y
  have hmdig := padNat_all_digits 2 m
  have hddig := padNat_all_digits 2 d
  rw [hy] at hydig
  rw [hm] at hmdig
  rw [hd] at hddig
  unfold isIsoDateShape
  have hdata : (formatDate y m d).data =
      [a1, a2, a3, a4, '-', b1, b2, '-', c1, c2] := by
    show (padNat 4 y ++ ('-' :: padNat 2 m) ++ ('-' :: padNat 2 d)) = _
    rw [hy, hm, hd]
    rfl
  rw [hdata]
  simp only [decide_eq_true_eq]
  exact ⟨hydig a1 (by simp), hydig a2 (by simp), hydig a3 (by simp), hydig a4 (by simp),
    trivial, hmdig b1 (by simp), hmdig b2 (by simp), trivial, hddig c1 (by simp),
    hddig c2 (by simp)⟩

theorem standardize_date_fail {s : String}
    (h1 : parseYmdDash s.data = none) (h2 : parseMdySlash s.data = none)
    (h3 : parseDmySlash s.data = none) (h4 : parseYmdSlash s.data = none) :
    standardize_date s =
      .error ("Date standardization error: Unable to parse date: " ++ s) := by
  unfold standardize_date
  rw [h1, h2, h3, h4]

theorem processRow_bad_date {m : FieldMapping} {row : RawRow}
    (h1 : parseYmdDash (rawDate m row).data = none)
    (h2 : parseMdySlash (rawDate m row).data = none)
    (h3 : parseDmySlash (rawDate m row).data = none)
    (h4 : parseYmdSlash (rawDate m row).data = none) :
    processRow m row =
      .error ("Date standardization error: Unable to parse date: " ++ rawDate m row) := by
  unfold processRow
  rw [standardize_date_fail h1 h2 h3 h4]

/-! ## Shape of accepted amount strings -/

theorem filter_comma_groups (gs : List (List Char))
    (h : ∀ g ∈ gs, ∀ c ∈ g, c ≠ ',') :
    ((gs.map (fun g => ',' :: g)).join).filter (fun c => c ≠ ',') = gs.join := by
  induction gs with
  | nil => rfl
  | cons g gs ih =>
    simp only [List.map_cons, List.join_cons]
    rw [List.filter_append, List.filter_cons]
    have : ¬ (decide (',' ≠ ',') = true) := by decide
    rw [if_neg this]
    rw [filter_ne_eq_self (h g (List.mem_cons_self g gs)),
      ih (fun x hx => h x (List.mem_cons_of_mem g hx))]

theorem standardize_amount_shape {sym : String}
    (hsym : sym ∈ (["", "$", "£", "€"] : List String)) (neg : Bool)
    (g0 : List Char) (gs : List (List Char)) (fr : List Char)
    (hg0 : g0 ≠ []) (hg0d : ∀ c ∈ g0, c.isDigit = true)
    (hgs : ∀ g ∈ gs, ∀ c ∈ g, c.isDigit = true)
    (hfr : ∀ c ∈ fr, c.isDigit = true) :
    standardize_amount (sym ++ String.mk ((if neg then ['-'] else []) ++
      (g0 ++ (gs.map (fun g => ',' :: g)).join) ++
      (if fr = [] then [] else '.' :: fr))) =
    .ok (mkFinite neg (g0 ++ gs.join) fr 0) := by
  set sign : List Char := if neg then ['-'] else [] with hsign
  set D : List Char := g0 ++ (gs.map (fun g => ',' :: g)).join with hD
  set fpart : List Char := if fr = [] then [] else '.' :: fr with hfpart
  set L : List Char := sign ++ D ++ fpart with hL
  have hclass : ∀ c ∈ L, c.isDigit = true ∨ c = '-' ∨ c = ',' ∨ c = '.' := by
    intro c hc
    rcases List.mem_append.mp hc with hc1 | hcf
    · rcases List.mem_append.mp hc1 with hcs | hcd
      · rw [hsign] at hcs
        cases neg with
        | true =>
          have : c = '-' := by simpa using hcs
          exact Or.inr (Or.inl this)
        | false => simp at hcs
      · rw [hD] at hcd
        rcases List.mem_append.mp hcd with hg | hj
        · exact Or.inl (hg0d c hg)
        · obtain ⟨gg, hgg, hcg⟩ := List.mem_join.mp hj
          obtain ⟨g, hgmem, rfl⟩ := List.mem_map.mp hgg
          rcases List.mem_cons.mp hcg with rfl | hcg'
          · exact Or.inr (Or.inr (Or.inl rfl))
          · exact Or.inl (hgs g hgmem c hcg')
    · rw [hfpart] at hcf
      by_cases hfe : fr = []
      · rw [if_pos hfe] at hcf
        simp at hcf
      · rw [if_neg hfe] at hcf
        rcases List.mem_cons.mp hcf with rfl | hcfr
        · exact Or.inr (Or.inr (Or.inr rfl))
        · exact Or.inl (hfr c hcfr)
  have hnodollar : ∀ c ∈ L, c ≠ '$' := by
    intro c hc
    rcases hclass c hc with hd | rfl | rfl | rfl
    · exact (digit_not_special hd).2.1
    all_goals decide
  have hnopound : ∀ c ∈ L, c ≠ '£' := by
    intro c hc
    rcases hclass c hc with hd | rfl | rfl | rfl
    · exact (digit_not_special hd).2.2.1
    all_goals decide
  have hnoeuro : ∀ c ∈ L, c ≠ '€' := by
    intro c hc
    rcases hclass c hc with hd | rfl | rfl | rfl
    · exact (digit_not_special hd).2.2.2.1
    all_goals decide
  have hnospace : ∀ c ∈ L, pyIsSpace c = false := by
    intro c hc
    rcases hclass c hc with hd | rfl | rfl | rfl
    · exact digit_not_space hd
    all_goals decide
  have hdata : (sym ++ String.mk L).data = sym.data ++ L := by
    simp [String.data_append]
  have hsymfil : ((sym.data.filter (fun c => c ≠ '$')).filter
      (fun c => c ≠ '£')).filter (fun c => c ≠ '€') = [] := by
    simp only [List.mem_cons, List.not_mem_nil, or_false] at hsym
    rcases hsym with rfl | rfl | rfl | rfl <;> rfl
  have hclean : cleanAmount (sym ++ String.mk L) =
      sign ++ (g0 ++ gs.join) ++ (if fr = [] then [] else '.' :: fr) := by
    unfold cleanAmount
    rw [hdata, List.filter_append, List.filter_append, List.filter_append,
      filter_ne_eq_self hnodollar, filter_ne_eq_self hnopound, filter_ne_eq_self hnoeuro,
      hsymfil, List.nil_append, pyStripList_eq_self hnospace, hL]
    rw [List.filter_append, List.filter_append]
    have hsfil : sign.filter (fun c => c ≠ ',') = sign := by
      apply filter_ne_eq_self
      intro c hc
      rw [hsign] at hc
      cases neg with
      | true =>
        have : c = '-' := by simpa using hc
        subst this
        decide
      | false => simp at hc
    have hDfil : D.filter (fun c => c ≠ ',') = g0 ++ gs.join := by
      rw [hD, List.filter_append,
        filter_ne_eq_self (fun c hc => (digit_not_special (hg0d c hc)).2.2.2.2.1),
        filter_comma_groups gs
          (fun g hg c hc => (digit_not_special (hgs g hg c hc)).2.2.2.2.1)]
    have hffil : fpart.filter (fun c => c ≠ ',') = fpart := by
      apply filter_ne_eq_self
      intro c hc
      rw [hfpart] at hc
      by_cases hfe : fr = []
      · rw [if_pos hfe] at hc
        simp at hc
      · rw [if_neg hfe] at hc
        rcases List.mem_cons.mp hc with rfl | hcfr
        · decide
        · exact (digit_not_special (hfr c hcfr)).2.2.2.2.1
    rw [hsfil, hDfil, hffil, hfpart]
  have hipne : g0 ++ gs.join ≠ [] := by
    intro hnil
    exact hg0 (List.append_eq_nil.mp hnil).1
  have hipdig : ∀ c ∈ g0 ++ gs.join, c.isDigit = true := by
    intro c hc
    rcases List.mem_append.mp hc with hg | hj
    · exact hg0d c hg
    · obtain ⟨g, hgmem, hcg⟩ := List.mem_join.mp hj
      exact hgs g hgmem c hcg
  have hparse := pyFloatParse_plain neg (g0 ++ gs.join) fr hipne hipdig hfr
  unfold standardize_amount
  rw [hclean, hsign, hparse]

/-! ## The claims -/

/-- Claim C1, counterexample: the field extraction of `load_transactions` does
not default every missing column to the empty string — for the amount column,
`row.get(mapping['amount_field'], '0')` yields `"0"`, another default value,
when the mapped column is absent from the row. -/
theorem claim_C1_counterexample :
    rawAmount exMapping [] = "0" ∧ ("0" : String) ≠ "" := by
  exact ⟨rfl, by decide⟩

/-- Claim C1, amended: field extraction is permissive — a missing mapped
column raises no error; the date, description and category columns default to
the empty string, while the amount column defaults to the string `"0"`. -/
theorem claim_C1 (m : FieldMapping) (row : RawRow) :
    (List.lookup m.date_field row = none → rawDate m row = "") ∧
    (List.lookup m.description_field row = none → rawDescription m row = "") ∧
    (List.lookup m.amount_field row = none → rawAmount m row = "0") ∧
    (List.lookup m.category_field row = none → rawCategory m row = "") := by
  refine ⟨fun h => ?_, fun h => ?_, fun h => ?_, fun h => ?_⟩ <;>
    simp [rawDate, rawDescription, rawAmount, rawCategory, rowGet, h]

/-- Witness for C1 at a concrete mapping and the empty row. -/
theorem claim_C1_witness :
    rawDate exMapping [("Other", "x")] = "" ∧
    rawAmount exMapping [("Other", "x")] = "0" :=
  ⟨(claim_C1 _ _).1 (by decide), (claim_C1 _ _).2.2.1 (by decide)⟩

/-- Claim C2, counterexample: normalization is not atomic.  With a valid first
row and a second row whose date cannot be parsed, the run raises, yet the
transactions list afterwards — what the getter returns — still holds the
transaction derived from the first row. -/
theorem claim_C2_counterexample :
    (load_transactions idMapping [exRow, exBadRow] []).2.isSome = true ∧
    get_transactions (load_transactions idMapping [exRow, exBadRow] []).1 = [exTx] ∧
    ([exTx] : List Transaction) ≠ [] := by
  exact ⟨rfl, rfl, by decide⟩

/-- Claim C2, amended: a row's parse failure aborts the run at that row with
the wrapped error and no success value (`normalizeRows` yields `error`), but
the transactions of the rows preceding the failing row remain appended to the
processor's list and are returned by the getter afterwards. -/
theorem claim_C2 (m : FieldMapping) (pre : List RawRow) (bad : RawRow)
    (post : List RawRow) (ts : List Transaction) (e : String)
    (hpre : load_transactions m pre [] = (ts, none))
    (hbad : processRow m bad = .error e) :
    load_transactions m (pre ++ bad :: post) [] =
      (ts, some ("Error loading transactions: " ++ e)) ∧
    get_transactions (load_transactions m (pre ++ bad :: post) []).1 = ts ∧
    normalizeRows m (pre ++ bad :: post) = .error ("Error loading transactions: " ++ e) := by
  have h := @load_transactions_error_at m pre bad post e ts hpre hbad
  refine ⟨h, by rw [h]; rfl, ?_⟩
  unfold normalizeRows
  rw [h]

/-- Witness for C2: one valid row before an unparseable one. -/
theorem claim_C2_witness :
    load_transactions idMapping ([exRow] ++ exBadRow :: []) [] =
      ([exTx], some ("Error loading transactions: " ++
        "Date standardization error: Unable to parse date: not-a-date")) :=
  (claim_C2 idMapping [exRow] exBadRow [] [exTx]
    "Date standardization error: Unable to parse date: not-a-date"
    (by rfl) (by rfl)).1

/-- Claim C3: `_standardize_date` tries the four formats in the fixed order
`%Y-%m-%d`, `%m/%d/%Y`, `%d/%m/%Y`, `%Y/%m/%d`, accepts the first that
parses, fails only when all four fail, always emits `YYYY-MM-DD`, and
resolves the ambiguous `"03/04/2023"` by format priority to `"2023-03-04"`. -/
theorem claim_C3 :
    (∀ (s : String) (t : ℕ × ℕ × ℕ), parseYmdDash s.data = some t →
      standardize_date s = .ok (formatDate3 t)) ∧
    (∀ (s : String) (t : ℕ × ℕ × ℕ), parseYmdDash s.data = none →
      parseMdySlash s.data = some t → standardize_date s = .ok (formatDate3 t)) ∧
    (∀ (s : String) (t : ℕ × ℕ × ℕ), parseYmdDash s.data = none →
      parseMdySlash s.data = none → parseDmySlash s.data = some t →
      standardize_date s = .ok (formatDate3 t)) ∧
    (∀ (s : String) (t : ℕ × ℕ × ℕ), parseYmdDash s.data = none →
      parseMdySlash s.data = none → parseDmySlash s.data = none →
      parseYmdSlash s.data = some t → standardize_date s = .ok (formatDate3 t)) ∧
    (∀ s : String, parseYmdDash s.data = none → parseMdySlash s.data = none →
      parseDmySlash s.data = none → parseYmdSlash s.data = none →
      standardize_date s =
        .error ("Date standardization error: Unable to parse date: " ++ s)) ∧
    (∀ s r : String, standardize_date s = .ok r → isIsoDateShape r = true) ∧
    standardize_date "03/04/2023" = .ok "2023-03-04" := by
  refine ⟨?_, ?_, ?_, ?_, ?_, ?_, by rfl⟩
  · intro s t h1
    unfold standardize_date
    rw [h1]
  · intro s t h1 h2
    unfold standardize_date
    rw [h1, h2]
  · intro s t h1 h2 h3
    unfold standardize_date
    rw [h1, h2, h3]
  · intro s t h1 h2 h3 h4
    unfold standardize_date
    rw [h1, h2, h3, h4]
  · intro s h1 h2 h3 h4
    exact standardize_date_fail h1 h2 h3 h4
  · intro s r h
    obtain ⟨t, hvalid, rfl⟩ := standardize_date_ok_inv h
    exact isIsoDateShape_formatDate hvalid

/-- Witness for C3 at the ambiguous date `"03/04/2023"`: the dashed format
fails, the `%m/%d/%Y` format wins. -/
theorem claim_C3_witness :
    standardize_date "03/04/2023" = .ok (formatDate3 (2023, 3, 4)) :=
  claim_C3.2.1 "03/04/2023" (2023, 3, 4) (by rfl) (by rfl)

/-- Claim C4: for every amount string made of an optional currency symbol
(`$`, `£` or `€`), an optional leading minus sign, digit groups separated by
thousands commas and an optional decimal part, `_standardize_amount` strips
the symbol, the commas and surrounding whitespace and returns exactly the
signed value of the unformatted decimal; any string whose cleaned remainder
is not numeric fails with the error message naming that cleaned string; the
two examples evaluate as claimed. -/
theorem claim_C4 :
    (∀ sym : String, sym ∈ (["", "$", "£", "€"] : List String) →
      ∀ (neg : Bool) (g0 : List Char) (gs : List (List Char)) (fr : List Char),
      g0 ≠ [] → g0.length ≤ 3 → (∀ c ∈ g0, c.isDigit = true) →
      (∀ g ∈ gs, g.length = 3 ∧ ∀ c ∈ g, c.isDigit = true) →
      (∀ c ∈ fr, c.isDigit = true) →
      ∃ n k, standardize_amount (sym ++ String.mk ((if neg then ['-'] else []) ++
          (g0 ++ (gs.map (fun g => ',' :: g)).join) ++
          (if fr = [] then [] else '.' :: fr))) = .ok (.finite n k) ∧
        decValue n k = (if neg then (-1 : ℚ) else 1) *
          ((digitsToNat (g0 ++ gs.join) : ℚ) + (digitsToNat fr : ℚ) / 10 ^ fr.length)) ∧
    (∀ s : String, pyFloatParse (cleanAmount s) = none →
      standardize_amount s =
        .error ("Amount standardization error: could not convert string to float: '"
          ++ String.mk (cleanAmount s) ++ "'")) ∧
    (∃ n k, standardize_amount "$1,234.56" = .ok (.finite n k) ∧
      decValue n k = 1234.56) ∧
    (∃ n k, standardize_amount "€-12.00" = .ok (.finite n k) ∧ decValue n k = -12) := by
  refine ⟨?_, ?_, ⟨123456, 2, by rfl, by norm_num [decValue]⟩,
    ⟨-12, 0, by rfl, by norm_num [decValue]⟩⟩
  · intro sym hsym neg g0 gs fr hg0 _ hg0d hgs hfr
    have hshape := standardize_amount_shape hsym neg g0 gs fr hg0 hg0d
      (fun g hg => (hgs g hg).2) hfr
    obtain ⟨n, k, hmk, hval⟩ := mkFinite_zero_val neg (g0 ++ gs.join) fr
    refine ⟨n, k, ?_, ?_⟩
    · rw [hshape, hmk]
    · rw [hval]
  · intro s h
    unfold standardize_amount
    rw [h]

/-- Witness for C4 at `"$1,234.56"`. -/
theorem claim_C4_witness :
    ∃ n k, standardize_amount ("$" ++ String.mk ((if (false : Bool) then ['-'] else []) ++
        (['1'] ++ (([['2', '3', '4']].map (fun g => ',' :: g)).join)) ++
        (if (['5', '6'] : List Char) = [] then [] else '.' :: ['5', '6']))) =
      .ok (.finite n k) ∧
    decValue n k = (if (false : Bool) then (-1 : ℚ) else 1) *
      ((digitsToNat (['1'] ++ ([['2', '3', '4']] : List (List Char)).join) : ℚ) +
        (digitsToNat ['5', '6'] : ℚ) / 10 ^ (['5', '6'] : List Char).length) :=
  claim_C4.1 "$" (by decide) false ['1'] [['2', '3', '4']] ['5', '6']
    (by decide) (by decide) (by decide) (by decide) (by decide)

/-- Claim C5: an input containing a row whose date string matches none of the
four formats makes the whole run fail with the wrapped date error naming the
raw date string, and no transaction sequence is produced. -/
theorem claim_C5 (m : FieldMapping) (pre post : List RawRow) (bad : RawRow)
    (ts : List Transaction)
    (hpre : normalizeRows m pre = .ok ts)
    (h1 : parseYmdDash (rawDate m bad).data = none)
    (h2 : parseMdySlash (rawDate m bad).data = none)
    (h3 : parseDmySlash (rawDate m bad).data = none)
    (h4 : parseYmdSlash (rawDate m bad).data = none) :
    normalizeRows m (pre ++ bad :: post) =
      .error ("Error loading transactions: Date standardization error: Unable to parse date: "
        ++ rawDate m bad) ∧
    ∀ out, normalizeRows m (pre ++ bad :: post) ≠ .ok out := by
  have hbad := processRow_bad_date h1 h2 h3 h4
  have herr := @normalizeRows_error_at m pre bad post
    ("Date standardization error: Unable to parse date: " ++ rawDate m bad) ts hpre hbad
  have hmsg : "Error loading transactions: " ++
      ("Date standardization error: Unable to parse date: " ++ rawDate m bad) =
      "Error loading transactions: Date standardization error: Unable to parse date: "
        ++ rawDate m bad := by
    rw [← String.append_assoc]
    rfl
  rw [hmsg] at herr
  refine ⟨herr, ?_⟩
  intro out hout
  rw [hout] at herr
  exact absurd herr (by simp)

/-- Witness for C5: a valid row followed by the date `"not-a-date"`. -/
theorem claim_C5_witness :
    normalizeRows idMapping ([exRow] ++ exBadRow :: []) =
      .error ("Error loading transactions: Date standardization error: Unable to parse date: "
        ++ rawDate idMapping exBadRow) :=
  (claim_C5 idMapping [exRow] [] exBadRow [exTx] (by rfl) (by rfl) (by rfl)
    (by rfl) (by rfl)).1

/-- Claim C6: `_load_config` returns the descriptor unchanged when all four
required keys are present, fails when any is absent, and never returns a
mapping that lacks one of the four keys. -/
theorem claim_C6 (c : ConfigDoc) :
    ((∀ k ∈ requiredKeys, (List.lookup k c).isSome = true) → load_config c = .ok c) ∧
    ((∃ k ∈ requiredKeys, List.lookup k c = none) →
      load_config c = .error "Config file missing required field mappings") ∧
    (∀ c', load_config c = .ok c' →
      c' = c ∧ ∀ k ∈ requiredKeys, (List.lookup k c').isSome = true) := by
  refine ⟨?_, ?_, ?_⟩
  · intro h
    unfold load_config
    rw [if_pos (List.all_eq_true.mpr (fun k hk => h k hk))]
  · rintro ⟨k, hk, hnone⟩
    unfold load_config
    rw [if_neg]
    intro hall
    have := List.all_eq_true.mp hall k hk
    rw [hnone] at this
    simp at this
  · intro c' h
    unfold load_config at h
    split at h
    · rename_i hall
      rw [Except.ok.injEq] at h
      subst h
      exact ⟨rfl, fun k hk => List.all_eq_true.mp hall k hk⟩
    · exact absurd h (by simp)

/-- Witness for C6 at a complete descriptor. -/
theorem claim_C6_witness : load_config exConfig = .ok exConfig :=
  (claim_C6 exConfig).1 (by decide)

/-- Claim C7: round-trip idempotence.  The reader's row for a written
transaction pairs the fixed header with the writer's serialized record, and
re-reading the written records of any successfully normalized sequence with
the identity mapping yields the same sequence. -/
theorem claim_C7 (m : FieldMapping) (rows : List RawRow) (ts : List Transaction)
    (h : normalizeRows m rows = .ok ts) :
    (∀ t : Transaction, transactionToRow t =
      List.zip ["date", "description", "amount", "category"] (serializeRow t)) ∧
    normalizeRows idMapping (ts.map transactionToRow) = .ok ts := by
  refine ⟨fun t => rfl, ?_⟩
  apply normalizeRows_roundtrip_list
  intro t ht
  obtain ⟨row, hrow⟩ := normalizeRows_mem_ok h t ht
  exact processRow_roundtrip hrow

/-- Witness for C7 on a one-row input. -/
theorem claim_C7_witness :
    normalizeRows idMapping (([exTx] : List Transaction).map transactionToRow) =
      .ok [exTx] :=
  (claim_C7 idMapping [exRow] [exTx] (by rfl)).2

/-- Claim C8: row-order preservation — on an all-valid input the output has
the same length as the input and the `i`-th output transaction is produced by
processing exactly the `i`-th input row. -/
theorem claim_C8 (m : FieldMapping) (rows : List RawRow) (ts : List Transaction)
    (h : normalizeRows m rows = .ok ts) :
    ts.length = rows.length ∧
    ∀ i (hi : i < rows.length) (hi' : i < ts.length),
      processRow m (rows.get ⟨i, hi⟩) = .ok (ts.get ⟨i, hi'⟩) :=
  normalizeRows_spec h

/-- Witness for C8 on a one-row input. -/
theorem claim_C8_witness :
    ([exTx] : List Transaction).length = ([exRow] : List RawRow).length ∧
    processRow idMapping (([exRow] : List RawRow).get ⟨0, by decide⟩) =
      .ok (([exTx] : List Transaction).get ⟨0, by decide⟩) := by
  have h := claim_C8 idMapping [exRow] [exTx] (by rfl)
  exact ⟨h.1, h.2 0 (by decide) (by decide)⟩

/-- Claim C9: writing is rejected on an empty transaction sequence —
`write_standardized_csv` raises instead of producing a header-only file. -/
theorem claim_C9 :
    write_standardized_csv [] =
      .error "No transactions loaded. Call load_transactions() first." ∧
    ∀ out, write_standardized_csv ([] : List Transaction) ≠ .ok out := by
  refine ⟨rfl, ?_⟩
  intro out h
  rw [show write_standardized_csv [] =
    .error "No transactions loaded. Call load_transactions() first." from rfl] at h
  exact absurd h (by simp)

/-- Claim C10: `_standardize_amount` accepts strictly more than plain signed
decimals — scientific notation, `inf` and `nan` succeed, and commas are
removed at every position, so `"1,2,3"` parses as `123`. -/
theorem claim_C10 :
    (standardize_amount "1e3" = .ok (.finite 1000 0) ∧ decValue 1000 0 = 1000) ∧
    standardize_amount "inf" = .ok (.inf false) ∧
    standardize_amount "nan" = .ok .nan ∧
    (standardize_amount "1,2,3" = .ok (.finite 123 0) ∧ decValue 123 0 = 123) := by
  exact ⟨⟨rfl, by norm_num [decValue]⟩, rfl, rfl, rfl, by norm_num [decValue]⟩
